import Mathlib

/-!
Verification of the td-gammon backgammon engine core
(`src/backgammon/board.py`, `src/backgammon/backgammon_game.py`).

The board, game-state classifier, move generator, move applier/undo and
serializer are embedded shallowly: Python in-place mutation of the shared
`Board` becomes explicit state passing (functions return the updated board),
Python `int` becomes `Int`, Python lists become `List Int`, the `set` of
`MoveRoll` objects becomes a `List (List Move)` (the source's `MoveRoll`
class defines no `__eq__`/`__hash__`, so the Python set deduplicates by
object identity only and therefore behaves as a bag of recorded sequences,
while `Move` is a `namedtuple` and deduplicates by value).
-/

namespace TDGammon

inductive Player
  | WHITE
  | BLACK
deriving DecidableEq, Repr

def Player.opponent : Player → Player
  | .WHITE => .BLACK
  | .BLACK => .WHITE

/-- `MoveType` from `backgammon_game.py` (five kinds). -/
inductive MoveType
  | NORMAL
  | NORMAL_PUT_ON_BAR
  | BAR_ENTRY
  | BAR_ENTRY_PUT_ON_BAR
  | BEAR_OFF
deriving DecidableEq, Repr

/-- `Move = namedtuple("Move", "from_point to_point move_type")`.
Point indices are Python ints; `-1` is the sentinel used for bar entries
(no origin) and bear-offs (no destination). -/
structure Move where
  from_point : Int
  to_point : Int
  move_type : MoveType
deriving DecidableEq, Repr

inductive GameState
  | NORMAL
  | BARRED_PIECES
  | BEAR_OFF
  | OVER
deriving DecidableEq, Repr

/-- The board: 24 signed point values (positive = white checkers,
negative = black), the side to move, and the per-color barred/offed
counters, exactly the fields of `Board.__init__` in `board.py`. -/
structure Board where
  points : List Int
  turn : Player
  barredWhite : Int
  barredBlack : Int
  offedWhite : Int
  offedBlack : Int
deriving DecidableEq, Repr

def NUM_PLAYABLE_POINTS : Int := 24

def INIT_CHECKER_COUNT : Int := 15

/-- Read `points[i]`; all call sites reached in the verified claims keep
`0 ≤ i < 24`, so the out-of-range default is never observed there. -/
def Board.pointAt (b : Board) (i : Int) : Int :=
  b.points.getD i.toNat 0

def Board.setPoint (b : Board) (i : Int) (v : Int) : Board :=
  { b with points := b.points.set i.toNat v }

/-- Modelled from the spec: `Board.inc_point`, the unchecked primitive
mutator "increment a point's checker count" of §4.1, is called by
`backgammon_game.py` but its body is not among the provided sources.
On the signed encoding it adds one white checker (equivalently removes
one black checker): `points[i] += 1`. -/
def Board.inc_point (b : Board) (i : Int) : Board :=
  b.setPoint i (b.pointAt i + 1)

/-- Modelled from the spec: `Board.dec_point`, see `Board.inc_point`;
`points[i] -= 1`. -/
def Board.dec_point (b : Board) (i : Int) : Board :=
  b.setPoint i (b.pointAt i - 1)

/-- Modelled from the spec: `Board.inc_barred`, "increment a color's
barred count" (§4.1). -/
def Board.inc_barred (b : Board) : Player → Board
  | .WHITE => { b with barredWhite := b.barredWhite + 1 }
  | .BLACK => { b with barredBlack := b.barredBlack + 1 }

/-- Modelled from the spec: `Board.dec_barred` (§4.1). -/
def Board.dec_barred (b : Board) : Player → Board
  | .WHITE => { b with barredWhite := b.barredWhite - 1 }
  | .BLACK => { b with barredBlack := b.barredBlack - 1 }

/-- Modelled from the spec: `Board.inc_offed` (§4.1). -/
def Board.inc_offed (b : Board) : Player → Board
  | .WHITE => { b with offedWhite := b.offedWhite + 1 }
  | .BLACK => { b with offedBlack := b.offedBlack + 1 }

/-- Modelled from the spec: `Board.dec_offed` (§4.1). -/
def Board.dec_offed (b : Board) : Player → Board
  | .WHITE => { b with offedWhite := b.offedWhite - 1 }
  | .BLACK => { b with offedBlack := b.offedBlack - 1 }

/-- `Board.__is_empty_point` / the public `is_empty_point` used by the
game: `points[idx] == 0`. -/
def Board.is_empty_point (b : Board) (i : Int) : Bool :=
  decide (b.pointAt i = 0)

/-- `Board.__is_point_of_color` (board.py): white iff the point value is
positive, black iff negative. -/
def Board.is_point_of_color (b : Board) (i : Int) (p : Player) : Bool :=
  match p with
  | .WHITE => decide (0 < b.pointAt i)
  | .BLACK => decide (b.pointAt i < 0)

/-- Modelled from the spec: `Board.num_checkers_at_index`, the "checker
count at a point" query of §4.1; the magnitude of the signed value. -/
def Board.num_checkers_at_index (b : Board) (i : Int) : Int :=
  |b.pointAt i|

/-- Modelled from the spec: `Board.index_in_home`, "is point inside a
color's home range (white: indices 0-5; black: indices 18-23)" (§4.1). -/
def Board.index_in_home (i : Int) (p : Player) : Bool :=
  match p with
  | .WHITE => decide (0 ≤ i ∧ i ≤ 5)
  | .BLACK => decide (18 ≤ i ∧ i ≤ 23)

/-- `Player.get_home_board_range` (board.py). -/
def Player.get_home_board_range : Player → List Int
  | .WHITE => [0, 1, 2, 3, 4, 5]
  | .BLACK => [23, 22, 21, 20, 19, 18]

def Board.barredOf (b : Board) : Player → Int
  | .WHITE => b.barredWhite
  | .BLACK => b.barredBlack

def Board.offedOf (b : Board) : Player → Int
  | .WHITE => b.offedWhite
  | .BLACK => b.offedBlack

/-- `Board.__all_pieces_in_house_for_turn` (board.py lines 259-276): the
SIGNED sum of the mover's home-range point values (so opposing checkers
there count negatively) plus the mover's offed count equals 15. -/
def Board.all_pieces_in_house_for_turn (b : Board) : Bool :=
  let cnt : Int :=
    ((Player.get_home_board_range b.turn).map
      (fun i => match b.turn with
        | .WHITE => b.pointAt i
        | .BLACK => -(b.pointAt i))).sum
  decide (cnt + b.offedOf b.turn = INIT_CHECKER_COUNT)

/-- Modelled from the spec: `Board.all_checkers_in_home`, called by
`BackgammonGame` but absent from the provided `board.py`: "whether all of
a color's checkers (on-board + offed) total 15 while confined to
on-board-home+offed" (§4.1) — the count of THAT color's checkers inside
its home range plus its offed count equals 15 (the repository's
`test_backgammon_game.py` bear-off fixtures pin this reading: opposing
checkers inside the range leave eligibility intact). -/
def Board.all_checkers_in_home (b : Board) (p : Player) : Bool :=
  let cnt : Int :=
    ((Player.get_home_board_range p).map
      (fun i => match p with
        | .WHITE => max (b.pointAt i) 0
        | .BLACK => max (-(b.pointAt i)) 0)).sum
  decide (cnt + b.offedOf p = INIT_CHECKER_COUNT)

/-- `Board.is_game_over` / `BackgammonGame.is_game_over`. -/
def Board.is_game_over (b : Board) : Bool :=
  decide (b.offedBlack = INIT_CHECKER_COUNT) || decide (b.offedWhite = INIT_CHECKER_COUNT)

/-- `Board.game_state_for_current_turn` (board.py lines 122-132): OVER,
then BARRED_PIECES for the mover, then BEAR_OFF via the signed
`__all_pieces_in_house_for_turn`, else NORMAL. -/
def Board.game_state_for_current_turn (b : Board) : GameState :=
  if b.is_game_over then GameState.OVER
  else if (b.turn = Player.WHITE ∧ 0 < b.barredWhite) ∨
          (b.turn = Player.BLACK ∧ 0 < b.barredBlack) then GameState.BARRED_PIECES
  else if b.all_pieces_in_house_for_turn then GameState.BEAR_OFF
  else GameState.NORMAL

/-- `BackgammonGame.game_state_for_current_turn` (backgammon_game.py lines
100-111): same priority chain, with the bear-off test delegated to the
board's `all_checkers_in_home` for the side to move. This is the
classifier the move generator consults. -/
def game_state_for_turn (b : Board) : GameState :=
  if b.is_game_over then GameState.OVER
  else if (b.turn = Player.WHITE ∧ 0 < b.barredWhite) ∨
          (b.turn = Player.BLACK ∧ 0 < b.barredBlack) then GameState.BARRED_PIECES
  else if b.all_checkers_in_home b.turn then GameState.BEAR_OFF
  else GameState.NORMAL

/-- `Board.clone` (board.py): a fresh board with a copied point list and
the same scalar fields. In the value embedding this is the identity. -/
def Board.clone (b : Board) : Board :=
  Board.mk b.points b.turn b.barredWhite b.barredBlack b.offedWhite b.offedBlack

/-- `BackgammonGame.clone` (backgammon_game.py lines 243-254): note the
source passes `offed.white` for BOTH of the last two constructor
arguments, so the clone's `offed_black` receives the original's
`offed_white`. -/
def gameClone (b : Board) : Board :=
  Board.mk b.points b.turn b.barredWhite b.barredBlack b.offedWhite b.offedWhite

/-- `range(s, e)` of Python, as a list of naturals. -/
def rangeFromTo (s e : Nat) : List Nat :=
  (List.range (e - s)).map (· + s)

/-- `BackgammonGame.__get_normal_moves_for_die`: scan points `s ≤ idx < e`;
for each mover-owned point compute `dest = idx + die*direction` and emit a
NORMAL move onto an own/empty destination or a NORMAL_PUT_ON_BAR onto a
lone opposing checker. -/
def normal_moves_for_die (b : Board) (s e : Nat) (direction : Int) (die : Int) : List Move :=
  (rangeFromTo s e).flatMap (fun idx0 =>
    let idx : Int := (idx0 : Int)
    if b.is_point_of_color idx b.turn ∧ 0 < b.num_checkers_at_index idx then
      let dest := idx + die * direction
      if 0 ≤ dest ∧ dest < NUM_PLAYABLE_POINTS then
        if b.is_point_of_color dest b.turn ∨ b.num_checkers_at_index dest = 0 then
          [Move.mk idx dest MoveType.NORMAL]
        else if ¬ b.is_point_of_color dest b.turn ∧ b.num_checkers_at_index dest = 1 then
          [Move.mk idx dest MoveType.NORMAL_PUT_ON_BAR]
        else []
      else []
    else [])

/-- The `while index_of_last_checker >= 0 >= points[...]` loop of the white
bear-off branch: the largest index in 0..5 holding a white checker, `-1`
if none. -/
def white_last_checker (b : Board) : Int :=
  if 0 < b.pointAt 5 then 5
  else if 0 < b.pointAt 4 then 4
  else if 0 < b.pointAt 3 then 3
  else if 0 < b.pointAt 2 then 2
  else if 0 < b.pointAt 1 then 1
  else if 0 < b.pointAt 0 then 0
  else -1

/-- The `while index_of_last_checker < 24 and points[...] >= 0` loop of the
black bear-off branch: the smallest index in 18..23 holding a black
checker, `24` if none. -/
def black_last_checker (b : Board) : Int :=
  if b.pointAt 18 < 0 then 18
  else if b.pointAt 19 < 0 then 19
  else if b.pointAt 20 < 0 then 20
  else if b.pointAt 21 < 0 then 21
  else if b.pointAt 22 < 0 then 22
  else if b.pointAt 23 < 0 then 23
  else 24

/-- `BackgammonGame.__get_possible_moves_for_die`. The Python result is a
`set` of `Move` namedtuples (value equality), embedded as a deduplicated
list. -/
def get_possible_moves_for_die (b : Board) (die : Int) : List Move :=
  match game_state_for_turn b with
  | GameState.NORMAL =>
      let direction : Int := if b.turn = Player.WHITE then -1 else 1
      (normal_moves_for_die b 0 24 direction die).dedup
  | GameState.BARRED_PIECES =>
      match b.turn with
      | Player.WHITE =>
          let t : Int := NUM_PLAYABLE_POINTS - die
          if b.is_point_of_color t b.turn ∨ b.num_checkers_at_index t = 0 then
            [Move.mk (-1) t MoveType.BAR_ENTRY]
          else if ¬ b.is_point_of_color t b.turn ∧ b.num_checkers_at_index t = 1 then
            [Move.mk (-1) t MoveType.BAR_ENTRY_PUT_ON_BAR]
          else []
      | Player.BLACK =>
          let t : Int := die - 1
          if b.is_point_of_color t b.turn ∨ b.num_checkers_at_index t = 0 then
            [Move.mk (-1) t MoveType.BAR_ENTRY]
          else if ¬ b.is_point_of_color t b.turn ∧ b.num_checkers_at_index t = 1 then
            [Move.mk (-1) t MoveType.BAR_ENTRY_PUT_ON_BAR]
          else []
  | GameState.BEAR_OFF =>
      match b.turn with
      | Player.WHITE =>
          let base := normal_moves_for_die b 0 6 (-1) die
          let last := white_last_checker b
          (base
            ++ (if last + 1 ≤ die then [Move.mk last (-1) MoveType.BEAR_OFF] else [])
            ++ (if 0 < b.pointAt (die - 1) then [Move.mk (die - 1) (-1) MoveType.BEAR_OFF] else [])).dedup
      | Player.BLACK =>
          let base := normal_moves_for_die b 18 24 1 die
          let last := black_last_checker b
          (base
            ++ (if NUM_PLAYABLE_POINTS - last ≤ die then [Move.mk last (-1) MoveType.BEAR_OFF] else [])
            ++ (if b.pointAt (NUM_PLAYABLE_POINTS - die) < 0 then
                  [Move.mk (NUM_PLAYABLE_POINTS - die) (-1) MoveType.BEAR_OFF] else [])).dedup
  | GameState.OVER => []

/-- `BackgammonGame.__apply_move`: the mover's color is inferred from the
board at application time (`from`-point occupancy, or the entry quadrant
for bar entries), exactly as in the source. -/
def apply_move (b : Board) (m : Move) : Board :=
  match m.move_type with
  | MoveType.NORMAL =>
      if b.is_point_of_color m.from_point Player.WHITE then
        (b.dec_point m.from_point).inc_point m.to_point
      else
        (b.inc_point m.from_point).dec_point m.to_point
  | MoveType.BEAR_OFF =>
      if b.is_point_of_color m.from_point Player.WHITE then
        (b.dec_point m.from_point).inc_offed Player.WHITE
      else
        (b.inc_point m.from_point).inc_offed Player.BLACK
  | MoveType.BAR_ENTRY =>
      if Board.index_in_home m.to_point Player.BLACK then
        (b.dec_barred Player.WHITE).inc_point m.to_point
      else
        (b.dec_barred Player.BLACK).dec_point m.to_point
  | MoveType.NORMAL_PUT_ON_BAR =>
      if b.is_point_of_color m.from_point Player.WHITE then
        ((((b.dec_point m.from_point).inc_point m.to_point).inc_point m.to_point).inc_barred Player.BLACK)
      else
        ((((b.inc_point m.from_point).dec_point m.to_point).dec_point m.to_point).inc_barred Player.WHITE)
  | MoveType.BAR_ENTRY_PUT_ON_BAR =>
      if Board.index_in_home m.to_point Player.BLACK then
        ((((b.inc_point m.to_point).dec_barred Player.WHITE).inc_point m.to_point).inc_barred Player.BLACK)
      else
        ((((b.dec_point m.to_point).dec_barred Player.BLACK).dec_point m.to_point).inc_barred Player.WHITE)

/-- `BackgammonGame.__undo_move`. In the BEAR_OFF case the source raises
`ValueError` when `from` lies in neither home range; that branch is
embedded as the identity and is unreachable for generator-produced moves
(see `legal_undo_apply`). -/
def undo_move (b : Board) (m : Move) : Board :=
  match m.move_type with
  | MoveType.NORMAL =>
      if b.is_point_of_color m.to_point Player.WHITE then
        (b.inc_point m.from_point).dec_point m.to_point
      else
        (b.dec_point m.from_point).inc_point m.to_point
  | MoveType.BEAR_OFF =>
      if Board.index_in_home m.from_point Player.WHITE then
        (b.inc_point m.from_point).dec_offed Player.WHITE
      else if Board.index_in_home m.from_point Player.BLACK then
        (b.dec_point m.from_point).dec_offed Player.BLACK
      else
        b
  | MoveType.NORMAL_PUT_ON_BAR =>
      if b.is_point_of_color m.to_point Player.WHITE then
        ((((b.inc_point m.from_point).dec_point m.to_point).dec_point m.to_point).dec_barred Player.BLACK)
      else
        ((((b.dec_point m.from_point).inc_point m.to_point).inc_point m.to_point).dec_barred Player.WHITE)
  | MoveType.BAR_ENTRY_PUT_ON_BAR =>
      if b.is_point_of_color m.to_point Player.WHITE then
        (((b.dec_point m.to_point).dec_point m.to_point).dec_barred Player.BLACK).inc_barred Player.WHITE
      else
        (((b.inc_point m.to_point).inc_point m.to_point).dec_barred Player.WHITE).inc_barred Player.BLACK
  | MoveType.BAR_ENTRY =>
      if b.is_point_of_color m.to_point Player.WHITE then
        (b.dec_point m.to_point).inc_barred Player.WHITE
      else
        (b.inc_point m.to_point).inc_barred Player.BLACK

/-- `BackgammonGame.apply_move_roll`: apply the moves in order. -/
def apply_move_roll (b : Board) (ms : List Move) : Board :=
  ms.foldl apply_move b

/-- `BackgammonGame.undo_move_roll`: undo the moves in reverse (LIFO)
order. -/
def undo_move_roll (b : Board) (ms : List Move) : Board :=
  ms.reverse.foldl undo_move b

/-- The `for move in moves_one_die` loop of `__get_move_rolls`: each
candidate is applied to the shared board, the continuation `step` explores
the remaining dice (returning the board it leaves behind), and the move is
undone on that returned board before the next candidate is tried. -/
def rollsLoop (step : Board → List Move → Board × List (List Move)) :
    Board → List Move → List Move → Board × List (List Move)
  | b, [], _ => (b, [])
  | b, m :: ms, moves =>
      let p := step (apply_move b m) (moves ++ [m])
      let b2 := undo_move p.1 m
      let q := rollsLoop step b2 ms moves
      (q.1, p.2 ++ q.2)

/-- `BackgammonGame.__get_move_rolls`, with the shared mutable board made
an explicit component of the result. A sequence is recorded when no dice
remain and at least one move was made; the candidate list for the first
die is computed once, from the board as it stands on entry. -/
def get_move_rolls : Board → List Int → List Move → Board × List (List Move)
  | b, [], moves => (b, if moves = [] then [] else [moves])
  | b, d :: ds, moves =>
      rollsLoop (fun b2 mvs => get_move_rolls b2 ds mvs) b
        (get_possible_moves_for_die b d) moves

/-- The purely functional reading of `__get_move_rolls`: explore every
candidate from the same entry board (no mutation). `get_move_rolls`
coincides with it on checker-conserving boards (`get_move_rolls_eq_pure`). -/
def pure_rolls : Board → List Int → List Move → List (List Move)
  | _, [], moves => if moves = [] then [] else [moves]
  | b, d :: ds, moves =>
      (get_possible_moves_for_die b d).flatMap
        (fun m => pure_rolls (apply_move b m) ds (moves ++ [m]))

/-- `BackgammonGame.get_possible_move_rolls`, with the shared board
threaded through (first component of the result). -/
def get_possible_move_rolls (b : Board) (roll : Int × Int) : Board × List (List Move) :=
  let r1 := if roll.1 < roll.2 then roll.2 else roll.1
  let r2 := if roll.1 < roll.2 then roll.1 else roll.2
  if r1 = r2 then
    let s4 := get_move_rolls b [r1, r1, r1, r1] []
    if s4.2 = [] then
      let s3 := get_move_rolls s4.1 [r1, r1, r1] []
      if s3.2 = [] then
        let s2 := get_move_rolls s3.1 [r1, r1] []
        if s2.2 = [] then
          get_move_rolls s2.1 [r1] []
        else s2
      else s3
    else s4
  else
    let p := get_move_rolls b [r1, r2] []
    let q := get_move_rolls p.1 [r2, r1] []
    let both := p.2 ++ q.2
    if both = [] then
      let one1 := get_possible_moves_for_die q.1 r1
      if one1 = [] then
        let one2 := get_possible_moves_for_die q.1 r2
        (q.1, one2.map (fun m => [m]))
      else (q.1, one1.map (fun m => [m]))
    else (q.1, both)

/-- The standard starting board (`1-2-b/6-5-w/8-3-w/12-5-b/13-5-w/17-3-b/
19-5-b/24-2-w w 0 0 0 0`), as pinned by the source's tests. -/
def startBoard : Board :=
  Board.mk
    [-2, 0, 0, 0, 0, 5, 0, 3, 0, 0, 0, -5, 5, 0, 0, 0, -3, 0, -5, 0, 0, 0, 0, 2]
    Player.WHITE 0 0 0 0

def digitChar : Nat → Char
  | 0 => '0'
  | 1 => '1'
  | 2 => '2'
  | 3 => '3'
  | 4 => '4'
  | 5 => '5'
  | 6 => '6'
  | 7 => '7'
  | 8 => '8'
  | _ => '9'

/-- Decimal rendering of a natural number, as Python's `str`. The fuel
argument (for which `n` itself suffices, as `n / 10 < n`) makes the
recursion structural, so the definition evaluates by reduction. -/
def natToCharsFuel : Nat → Nat → List Char
  | 0, n => [digitChar n]
  | f + 1, n =>
      if n < 10 then [digitChar n]
      else natToCharsFuel f (n / 10) ++ [digitChar (n % 10)]

def natToChars (n : Nat) : List Char := natToCharsFuel n n

/-- Python `str` of an int (a minus sign then the digits when negative). -/
def intToChars (i : Int) : List Char :=
  if i < 0 then '-' :: natToChars (-i).toNat else natToChars i.toNat

def charToDigit (c : Char) : Option Nat :=
  if c = '0' then some 0
  else if c = '1' then some 1
  else if c = '2' then some 2
  else if c = '3' then some 3
  else if c = '4' then some 4
  else if c = '5' then some 5
  else if c = '6' then some 6
  else if c = '7' then some 7
  else if c = '8' then some 8
  else if c = '9' then some 9
  else none

/-- One decimal-accumulation step of `int(s)`. -/
def pstep (acc : Option Nat) (c : Char) : Option Nat :=
  match acc, charToDigit c with
  | some a, some d => some (a * 10 + d)
  | _, _ => none

/-- Python `int(s)` on a non-negative decimal string ( `none` models the
`ValueError` raised on empty or non-numeric input). -/
def parseNat (l : List Char) : Option Nat :=
  if l = [] then none else l.foldl pstep (some 0)

/-- Python `int(s)` including a leading minus sign. -/
def parseInt (l : List Char) : Option Int :=
  match l with
  | '-' :: rest => (parseNat rest).map (fun n => -(n : Int))
  | _ => (parseNat l).map (fun n => (n : Int))

/-- Python `s.split(sep)` for a one-character separator: split at every
occurrence, keeping empty pieces. -/
def splitOnChar (c : Char) : List Char → List (List Char)
  | [] => [[]]
  | x :: xs =>
    if x = c then [] :: splitOnChar c xs
    else
      match splitOnChar c xs with
      | [] => [[x]]
      | h :: t => (x :: h) :: t

/-- The `for idx in range(24)` collection loop of `serialize_board`:
the (0-based index, signed value) pairs of the non-empty points, in index
order, starting the scan at index `s` with `n` indices to go. -/
def groupsFrom (b : Board) : Nat → Nat → List (Nat × Int)
  | _, 0 => []
  | s, n + 1 =>
      (if b.pointAt (s : Int) ≠ 0 then [((s : Nat), b.pointAt (s : Int))] else [])
        ++ groupsFrom b (s + 1) n

/-- One `<1-based-point>-<count>-<color>` group of `serialize_board`. -/
def renderGroup (g : Nat × Int) : List Char :=
  natToChars (g.1 + 1) ++ '-' :: (natToChars g.2.natAbs ++ '-' :: [if 0 < g.2 then 'w' else 'b'])

def Player.get_str_repr : Player → Char
  | .WHITE => 'w'
  | .BLACK => 'b'

/-- `Board.serialize_board` (board.py lines 160-194): the `/`-joined point
groups, the turn letter, then barred white/black and offed white/black. -/
def serializeChars (b : Board) : List Char :=
  (List.intercalate ['/'] ((groupsFrom b 0 24).map renderGroup))
    ++ ' ' :: Player.get_str_repr b.turn
    :: ' ' :: (intToChars b.barredWhite
    ++ ' ' :: (intToChars b.barredBlack
    ++ ' ' :: (intToChars b.offedWhite
    ++ ' ' :: intToChars b.offedBlack)))

def serialize_board (b : Board) : String :=
  String.mk (serializeChars b)

/-- One `part.split("-")` step of `Board.from_string`: a group must have
exactly three fields, numeric point and count; any side other than `w` is
treated as black, as in the source's `if side == "w" ... else`. The
result is the 0-based index and the signed value. Out-of-range 1-based
points (which `serialize_board` never emits) are embedded as failure. -/
def parseGroup (part : List Char) : Option (Nat × Int) :=
  match splitOnChar '-' part with
  | [a, cnt, side] =>
      match parseInt a, parseInt cnt with
      | some p, some c =>
          if 1 ≤ p ∧ p ≤ 24 then
            some ((p - 1).toNat, if side = ['w'] then c else -c)
          else none
      | _, _ => none
  | _ => none

/-- `Player.get_player_from_str_repr` (board.py): only `w`/`b` accepted. -/
def playerFromStr (s : List Char) : Option Player :=
  if s = ['w'] then some Player.WHITE
  else if s = ['b'] then some Player.BLACK
  else none

/-- `Board.from_string` (board.py lines 196-236). `none` models the
exceptions the source raises on malformed input (wrong field counts,
unknown turn letter, non-integer numbers). -/
def from_string (s : String) : Option Board :=
  match splitOnChar ' ' s.data with
  | [checkers, turnS, bw, bb, ow, ob] => do
      let turn ← playerFromStr turnS
      let bwI ← parseInt bw
      let bbI ← parseInt bb
      let owI ← parseInt ow
      let obI ← parseInt ob
      let pts ← (splitOnChar '/' checkers).foldlM
        (fun (acc : List Int) part => do
          let g ← parseGroup part
          pure (acc.set g.1 g.2))
        (List.replicate 24 (0 : Int))
      pure (Board.mk pts turn bwI bbI owI obI)
  | _ => none

/-- White's checker total: on-board white checkers plus barred plus offed. -/
def whiteTotal (b : Board) : Int :=
  (b.points.map (fun x => max x 0)).sum + b.barredWhite + b.offedWhite

/-- Black's checker total. -/
def blackTotal (b : Board) : Int :=
  (b.points.map (fun x => max (-x) 0)).sum + b.barredBlack + b.offedBlack

/-- The data-model invariant of §3: 24 points, non-negative barred/offed
counters, and 15 checkers per color. -/
def ValidBoard (b : Board) : Prop :=
  b.points.length = 24 ∧
  0 ≤ b.barredWhite ∧ 0 ≤ b.barredBlack ∧ 0 ≤ b.offedWhite ∧ 0 ≤ b.offedBlack ∧
  whiteTotal b = INIT_CHECKER_COUNT ∧ blackTotal b = INIT_CHECKER_COUNT

instance (b : Board) : Decidable (ValidBoard b) := by
  unfold ValidBoard; infer_instance

/-- Adding `d` to the value of point `i`: the common shape of
`inc_point`/`dec_point`, used by the apply/undo algebra. -/
def Board.modPoint (b : Board) (i : Int) (d : Int) : Board :=
  b.setPoint i (b.pointAt i + d)

/-- Total checkers in play: Σ|points| plus both barred and offed counts. -/
def totalCheckers (b : Board) : Int :=
  (b.points.map (fun x => |x|)).sum
    + b.barredWhite + b.barredBlack + b.offedWhite + b.offedBlack

/-- The number of checkers of the mover's OPPONENT at point `i`. -/
def opp_count_at (b : Board) (i : Int) : Int :=
  match b.turn with
  | .WHITE => max (-(b.pointAt i)) 0
  | .BLACK => max (b.pointAt i) 0

/-- The bar-entry destination for the mover and a die value: white enters
at `24 - die`, black at `die - 1`. -/
def entry_point (p : Player) (die : Int) : Int :=
  match p with
  | .WHITE => NUM_PLAYABLE_POINTS - die
  | .BLACK => die - 1

/-- The facts the generator guarantees about a move it emits on a given
board (`mem_moves_legal`); exactly what the apply/undo and conservation
lemmas consume. -/
inductive LegalMoveOn (b : Board) : Move → Prop
  | normalW (f t : Int) : b.turn = Player.WHITE → 0 ≤ f → f < 24 → 0 ≤ t → t < 24 → f ≠ t →
      0 < b.pointAt f → 0 ≤ b.pointAt t → LegalMoveOn b (Move.mk f t MoveType.NORMAL)
  | normalB (f t : Int) : b.turn = Player.BLACK → 0 ≤ f → f < 24 → 0 ≤ t → t < 24 → f ≠ t →
      b.pointAt f < 0 → b.pointAt t ≤ 0 → LegalMoveOn b (Move.mk f t MoveType.NORMAL)
  | hitW (f t : Int) : b.turn = Player.WHITE → 0 ≤ f → f < 24 → 0 ≤ t → t < 24 → f ≠ t →
      0 < b.pointAt f → b.pointAt t = -1 → LegalMoveOn b (Move.mk f t MoveType.NORMAL_PUT_ON_BAR)
  | hitB (f t : Int) : b.turn = Player.BLACK → 0 ≤ f → f < 24 → 0 ≤ t → t < 24 → f ≠ t →
      b.pointAt f < 0 → b.pointAt t = 1 → LegalMoveOn b (Move.mk f t MoveType.NORMAL_PUT_ON_BAR)
  | entryW (t : Int) : b.turn = Player.WHITE → 18 ≤ t → t ≤ 23 →
      0 ≤ b.pointAt t → 0 < b.barredWhite → LegalMoveOn b (Move.mk (-1) t MoveType.BAR_ENTRY)
  | entryB (t : Int) : b.turn = Player.BLACK → 0 ≤ t → t ≤ 5 →
      b.pointAt t ≤ 0 → 0 < b.barredBlack → LegalMoveOn b (Move.mk (-1) t MoveType.BAR_ENTRY)
  | entryHitW (t : Int) : b.turn = Player.WHITE → 18 ≤ t → t ≤ 23 →
      b.pointAt t = -1 → 0 < b.barredWhite →
      LegalMoveOn b (Move.mk (-1) t MoveType.BAR_ENTRY_PUT_ON_BAR)
  | entryHitB (t : Int) : b.turn = Player.BLACK → 0 ≤ t → t ≤ 5 →
      b.pointAt t = 1 → 0 < b.barredBlack →
      LegalMoveOn b (Move.mk (-1) t MoveType.BAR_ENTRY_PUT_ON_BAR)
  | bearW (f : Int) : b.turn = Player.WHITE → 0 ≤ f → f ≤ 5 →
      0 < b.pointAt f → LegalMoveOn b (Move.mk f (-1) MoveType.BEAR_OFF)
  | bearB (f : Int) : b.turn = Player.BLACK → 18 ≤ f → f ≤ 23 →
      b.pointAt f < 0 → LegalMoveOn b (Move.mk f (-1) MoveType.BEAR_OFF)

/-- `ms` is a sequence of moves each generated by
`get_possible_moves_for_die` on the board produced by applying the
previous ones, one move per die of `ds`. -/
inductive ChainLegal : Board → List Int → List Move → Prop
  | nil (b : Board) : ChainLegal b [] []
  | cons (b : Board) (d : Int) (ds : List Int) (m : Move) (ms : List Move) :
      m ∈ get_possible_moves_for_die b d →
      ChainLegal (apply_move b m) ds ms →
      ChainLegal b (d :: ds) (m :: ms)

/-- The §4.3 die-sequencing policy, written from the spec's words over the
purely functional search: doubles try 4, 3, 2, 1 copies and stop at the
first count yielding a sequence; non-doubles union both orders and fall
back to single-die play with the larger die preferred. -/
def move_rolls_spec (b : Board) (d1 d2 : Int) : List (List Move) :=
  let r1 := max d1 d2
  let r2 := min d1 d2
  if r1 = r2 then
    let s4 := pure_rolls b [r1, r1, r1, r1] []
    if s4 = [] then
      let s3 := pure_rolls b [r1, r1, r1] []
      if s3 = [] then
        let s2 := pure_rolls b [r1, r1] []
        if s2 = [] then pure_rolls b [r1] [] else s2
      else s3
    else s4
  else
    let both := pure_rolls b [r1, r2] [] ++ pure_rolls b [r2, r1] []
    if both = [] then
      let one1 := get_possible_moves_for_die b r1
      if one1 = [] then (get_possible_moves_for_die b r2).map (fun m => [m])
      else one1.map (fun m => [m])
    else both

/-- The §4.3 BEAR_OFF single-die candidate description, written from the
spec's words: within-home NORMAL/HIT moves; a bear-off from the exact pip
point when occupied; otherwise the overage bear-off of the most advanced
remaining checker (the farthest from the exit, with no checker beyond the
die's reach) when the die is large enough. -/
def bear_off_moves_spec (b : Board) (die : Int) (m : Move) : Prop :=
  match b.turn with
  | Player.WHITE =>
      (m.move_type = MoveType.NORMAL ∧ 0 ≤ m.from_point ∧ m.from_point ≤ 5 ∧
        m.to_point = m.from_point - die ∧ 0 ≤ m.to_point ∧
        0 < b.pointAt m.from_point ∧ 0 ≤ b.pointAt m.to_point) ∨
      (m.move_type = MoveType.NORMAL_PUT_ON_BAR ∧ 0 ≤ m.from_point ∧ m.from_point ≤ 5 ∧
        m.to_point = m.from_point - die ∧ 0 ≤ m.to_point ∧
        0 < b.pointAt m.from_point ∧ b.pointAt m.to_point = -1) ∨
      (m.move_type = MoveType.BEAR_OFF ∧ m.to_point = -1 ∧ m.from_point = die - 1 ∧
        0 < b.pointAt (die - 1)) ∨
      (m.move_type = MoveType.BEAR_OFF ∧ m.to_point = -1 ∧ ¬ 0 < b.pointAt (die - 1) ∧
        0 ≤ m.from_point ∧ m.from_point ≤ 5 ∧ 0 < b.pointAt m.from_point ∧
        (∀ j : Int, m.from_point < j → j ≤ 5 → b.pointAt j ≤ 0) ∧
        m.from_point + 1 ≤ die)
  | Player.BLACK =>
      (m.move_type = MoveType.NORMAL ∧ 18 ≤ m.from_point ∧ m.from_point ≤ 23 ∧
        m.to_point = m.from_point + die ∧ m.to_point < 24 ∧
        b.pointAt m.from_point < 0 ∧ b.pointAt m.to_point ≤ 0) ∨
      (m.move_type = MoveType.NORMAL_PUT_ON_BAR ∧ 18 ≤ m.from_point ∧ m.from_point ≤ 23 ∧
        m.to_point = m.from_point + die ∧ m.to_point < 24 ∧
        b.pointAt m.from_point < 0 ∧ b.pointAt m.to_point = 1) ∨
      (m.move_type = MoveType.BEAR_OFF ∧ m.to_point = -1 ∧ m.from_point = 24 - die ∧
        b.pointAt (24 - die) < 0) ∨
      (m.move_type = MoveType.BEAR_OFF ∧ m.to_point = -1 ∧ ¬ b.pointAt (24 - die) < 0 ∧
        18 ≤ m.from_point ∧ m.from_point ≤ 23 ∧ b.pointAt m.from_point < 0 ∧
        (∀ j : Int, 18 ≤ j → j < m.from_point → 0 ≤ b.pointAt j) ∧
        24 - m.from_point ≤ die)

/-- "The mover's entire on-board army is confined to the mover's home
range" (§4.2): no mover checkers on any point outside the home range. -/
def mover_confined (b : Board) : Bool :=
  (List.range 24).all (fun i =>
    Board.index_in_home (i : Int) b.turn ||
    match b.turn with
    | .WHITE => decide (b.pointAt (i : Int) ≤ 0)
    | .BLACK => decide (0 ≤ b.pointAt (i : Int)))

/-- The opponent of the mover has no checkers inside the mover's home
range. -/
def opp_free_home (b : Board) : Bool :=
  (List.range 24).all (fun i =>
    !(Board.index_in_home (i : Int) b.turn) ||
    match b.turn with
    | .WHITE => decide (0 ≤ b.pointAt (i : Int))
    | .BLACK => decide (b.pointAt (i : Int) ≤ 0))

/-- A valid board with white to move, white's whole army in its home or
offed, and a black anchor inside white's home (point index 3). -/
def boardC7 : Board :=
  Board.mk [13, 0, 0, -2, 0, 0, 0, 0, 0, 0, 0, 0, -13, 0, 0, 0, 0, 0, 0, 0, 0, 0, 0, 0]
    Player.WHITE 0 0 2 0

/-- A valid board with every checker on the bar: all 24 points empty. -/
def boardC8 : Board :=
  Board.mk (List.replicate 24 0) Player.WHITE 15 15 0 0

/-- White to move with 2 checkers on point index 2 and 13 offed (black's
army far away): both die orders of (5,3) record the identical two-move
bear-off sequence. -/
def boardC9 : Board :=
  Board.mk [0, 0, 2, 0, 0, 0, 0, 0, 0, 0, 0, 0, 0, 0, 0, 0, 0, 0, -7, -8, 0, 0, 0, 0]
    Player.WHITE 0 0 13 0

/-- A valid board whose offed counts differ (offed.black = 1). -/
def boardC10 : Board :=
  Board.mk [-1, 0, 0, 0, 0, 5, 0, 3, 0, 0, 0, -5, 5, 0, 0, 0, -3, 0, -5, 0, 0, 0, 0, 2]
    Player.WHITE 0 0 0 1

/-- Boards reachable from the start position by generator-produced move
rolls (with turn hand-overs, `get_and_set_opponent_turn`, in between). -/
inductive Reachable : Board → Prop
  | start : Reachable startBoard
  | play (b : Board) (r1 r2 : Int) (ms : List Move) :
      Reachable b → 1 ≤ r1 → r1 ≤ 6 → 1 ≤ r2 → r2 ≤ 6 →
      ms ∈ (get_possible_move_rolls b (r1, r2)).2 →
      Reachable (apply_move_roll b ms)
  | flip (b : Board) : Reachable b → Reachable { b with turn := b.turn.opponent }

/-! ### List access and update lemmas -/

theorem getD_set_eq (l : List Int) (i : Nat) (v : Int) (h : i < l.length) :
    (l.set i v).getD i 0 = v := by
  simp [List.getD_eq_getElem?_getD, List.getElem?_set_self, h]

theorem getD_set_ne (l : List Int) (i j : Nat) (v : Int) (h : i ≠ j) :
    (l.set i v).getD j 0 = l.getD j 0 := by
  simp [List.getD_eq_getElem?_getD, List.getElem?_set_ne h]

theorem set_getD_self (l : List Int) (i : Nat) (h : i < l.length) :
    l.set i (l.getD i 0) = l := by
  induction l generalizing i with
  | nil => simp at h
  | cons x xs ih =>
    cases i with
    | zero => simp
    | succ n =>
      simp only [List.getD_cons_succ, List.set_cons_succ]
      rw [ih n (by simpa using h)]

theorem sum_map_set (f : Int → Int) (l : List Int) (i : Nat) (v : Int) (h : i < l.length) :
    ((l.set i v).map f).sum = (l.map f).sum - f (l.getD i 0) + f v := by
  induction l generalizing i with
  | nil => simp at h
  | cons x xs ih =>
    cases i with
    | zero => simp; ring
    | succ n =>
      simp only [List.set_cons_succ, List.map_cons, List.sum_cons, List.getD_cons_succ]
      rw [ih n (by simpa using h)]
      ring

theorem sum_map_add_map (f g : Int → Int) (l : List Int) :
    (l.map f).sum + (l.map g).sum = (l.map (fun x => f x + g x)).sum := by
  induction l with
  | nil => simp
  | cons x xs ih => simp only [List.map_cons, List.sum_cons]; omega

/-! ### Board point-update algebra -/

theorem inc_point_eq_modPoint (b : Board) (i : Int) : b.inc_point i = b.modPoint i 1 := rfl

theorem dec_point_eq_modPoint (b : Board) (i : Int) : b.dec_point i = b.modPoint i (-1) := rfl

theorem modPoint_zero (b : Board) (i : Int) : b.modPoint i 0 = b := by
  by_cases h : i.toNat < b.points.length
  · simp only [Board.modPoint, Board.setPoint, Board.pointAt, add_zero, set_getD_self _ _ h]
  · have hl : b.points.length ≤ i.toNat := by omega
    simp [Board.modPoint, Board.setPoint, Board.pointAt, List.set_eq_of_length_le, hl]

theorem pointAt_modPoint_ne (b : Board) (i j d : Int) (h : i.toNat ≠ j.toNat) :
    (b.modPoint i d).pointAt j = b.pointAt j := by
  simp only [Board.modPoint, Board.setPoint, Board.pointAt]
  exact getD_set_ne _ _ _ _ h

theorem pointAt_modPoint_self (b : Board) (i d : Int) (h : i.toNat < b.points.length) :
    (b.modPoint i d).pointAt i = b.pointAt i + d := by
  simp only [Board.modPoint, Board.setPoint, Board.pointAt]
  exact getD_set_eq _ _ _ h

theorem modPoint_add (b : Board) (i : Int) (d e : Int) :
    (b.modPoint i d).modPoint i e = b.modPoint i (d + e) := by
  by_cases h : i.toNat < b.points.length
  · simp only [Board.modPoint, Board.setPoint, Board.pointAt, List.set_set]
    rw [getD_set_eq _ _ _ h]
    congr 2
    omega
  · have hl : b.points.length ≤ i.toNat := by omega
    simp [Board.modPoint, Board.setPoint, Board.pointAt, List.set_eq_of_length_le, hl]

theorem modPoint_comm (b : Board) (i j d e : Int) (h : i.toNat ≠ j.toNat) :
    (b.modPoint i d).modPoint j e = (b.modPoint j e).modPoint i d := by
  simp only [Board.modPoint, Board.setPoint, Board.pointAt]
  rw [getD_set_ne _ _ _ _ h, getD_set_ne _ _ _ _ (Ne.symm h), List.set_comm _ _ _ h]

theorem modPoint_turn (b : Board) (i d : Int) : (b.modPoint i d).turn = b.turn := rfl

theorem modPoint_barredWhite (b : Board) (i d : Int) :
    (b.modPoint i d).barredWhite = b.barredWhite := rfl

theorem modPoint_barredBlack (b : Board) (i d : Int) :
    (b.modPoint i d).barredBlack = b.barredBlack := rfl

theorem modPoint_offedWhite (b : Board) (i d : Int) :
    (b.modPoint i d).offedWhite = b.offedWhite := rfl

theorem modPoint_offedBlack (b : Board) (i d : Int) :
    (b.modPoint i d).offedBlack = b.offedBlack := rfl

theorem length_modPoint (b : Board) (i d : Int) :
    (b.modPoint i d).points.length = b.points.length := by
  simp [Board.modPoint, Board.setPoint]

theorem inc_barred_modPoint (b : Board) (p : Player) (i d : Int) :
    (b.inc_barred p).modPoint i d = (b.modPoint i d).inc_barred p := by
  cases p <;> rfl

theorem dec_barred_modPoint (b : Board) (p : Player) (i d : Int) :
    (b.dec_barred p).modPoint i d = (b.modPoint i d).dec_barred p := by
  cases p <;> rfl

theorem inc_offed_modPoint (b : Board) (p : Player) (i d : Int) :
    (b.inc_offed p).modPoint i d = (b.modPoint i d).inc_offed p := by
  cases p <;> rfl

theorem dec_offed_modPoint (b : Board) (p : Player) (i d : Int) :
    (b.dec_offed p).modPoint i d = (b.modPoint i d).dec_offed p := by
  cases p <;> rfl

theorem pointAt_inc_barred (b : Board) (p : Player) (i : Int) :
    (b.inc_barred p).pointAt i = b.pointAt i := by cases p <;> rfl

theorem pointAt_dec_barred (b : Board) (p : Player) (i : Int) :
    (b.dec_barred p).pointAt i = b.pointAt i := by cases p <;> rfl

theorem pointAt_inc_offed (b : Board) (p : Player) (i : Int) :
    (b.inc_offed p).pointAt i = b.pointAt i := by cases p <;> rfl

theorem pointAt_dec_offed (b : Board) (p : Player) (i : Int) :
    (b.dec_offed p).pointAt i = b.pointAt i := by cases p <;> rfl

theorem inc_dec_barred (b : Board) (p : Player) : (b.inc_barred p).dec_barred p = b := by
  cases b; cases p <;> simp [Board.inc_barred, Board.dec_barred]

theorem dec_inc_barred (b : Board) (p : Player) : (b.dec_barred p).inc_barred p = b := by
  cases b; cases p <;> simp [Board.inc_barred, Board.dec_barred]

theorem inc_dec_offed (b : Board) (p : Player) : (b.inc_offed p).dec_offed p = b := by
  cases b; cases p <;> simp [Board.inc_offed, Board.dec_offed]


theorem length_inc_barred (b : Board) (p : Player) :
    (b.inc_barred p).points.length = b.points.length := by cases p <;> rfl

theorem length_dec_barred (b : Board) (p : Player) :
    (b.dec_barred p).points.length = b.points.length := by cases p <;> rfl

theorem length_inc_offed (b : Board) (p : Player) :
    (b.inc_offed p).points.length = b.points.length := by cases p <;> rfl

theorem length_dec_offed (b : Board) (p : Player) :
    (b.dec_offed p).points.length = b.points.length := by cases p <;> rfl

theorem modPoint_merge (b : Board) (i : Int) (d e s : Int) (h : d + e = s) :
    (b.modPoint i d).modPoint i e = b.modPoint i s := by
  rw [modPoint_add, h]

theorem modPoint_cancel (b : Board) (i j a c a2 c2 : Int) (h : i.toNat ≠ j.toNat)
    (ha : a + a2 = 0) (hc : c + c2 = 0) :
    (((b.modPoint i a).modPoint j c).modPoint i a2).modPoint j c2 = b := by
  rw [modPoint_comm (b.modPoint i a) j i c a2 (Ne.symm h), modPoint_merge b i a a2 0 ha,
      modPoint_merge _ j c c2 0 hc, modPoint_zero, modPoint_zero]

/-- For every move the generator can emit, `__undo_move` exactly reverses
`__apply_move` on the board the move was applied to. -/
theorem legal_undo_apply (b : Board) (m : Move) (hl : LegalMoveOn b m)
    (hlen : b.points.length = 24) : undo_move (apply_move b m) m = b := by
  cases hl with
  | normalW f t hw h0f hf h0t ht hft hpf hpt =>
    have hn : f.toNat ≠ t.toNat := by omega
    have ha : apply_move b (Move.mk f t MoveType.NORMAL) = (b.modPoint f (-1)).modPoint t 1 := by
      simp only [apply_move, Board.is_point_of_color, decide_eq_true_eq]
      rw [if_pos hpf]; rfl
    have hct : ((b.modPoint f (-1)).modPoint t 1).pointAt t = b.pointAt t + 1 := by
      rw [pointAt_modPoint_self _ t 1 (by rw [length_modPoint]; omega),
          pointAt_modPoint_ne _ _ _ _ hn]
    rw [ha]
    simp only [undo_move, Board.is_point_of_color, decide_eq_true_eq]
    rw [if_pos (by rw [hct]; omega)]
    simp only [inc_point_eq_modPoint, dec_point_eq_modPoint]
    exact modPoint_cancel b f t (-1) 1 1 (-1) hn (by norm_num) (by norm_num)
  | normalB f t hw h0f hf h0t ht hft hpf hpt =>
    have hn : f.toNat ≠ t.toNat := by omega
    have ha : apply_move b (Move.mk f t MoveType.NORMAL) = (b.modPoint f 1).modPoint t (-1) := by
      simp only [apply_move, Board.is_point_of_color, decide_eq_true_eq]
      rw [if_neg (by omega)]; rfl
    have hct : ((b.modPoint f 1).modPoint t (-1)).pointAt t = b.pointAt t - 1 := by
      rw [pointAt_modPoint_self _ t (-1) (by rw [length_modPoint]; omega),
          pointAt_modPoint_ne _ _ _ _ hn]
      ring
    rw [ha]
    simp only [undo_move, Board.is_point_of_color, decide_eq_true_eq]
    rw [if_neg (by rw [hct]; omega)]
    simp only [inc_point_eq_modPoint, dec_point_eq_modPoint]
    exact modPoint_cancel b f t 1 (-1) (-1) 1 hn (by norm_num) (by norm_num)
  | hitW f t hw h0f hf h0t ht hft hpf hpt =>
    have hn : f.toNat ≠ t.toNat := by omega
    have ha : apply_move b (Move.mk f t MoveType.NORMAL_PUT_ON_BAR)
        = (((b.modPoint f (-1)).modPoint t 1).modPoint t 1).inc_barred Player.BLACK := by
      simp only [apply_move, Board.is_point_of_color, decide_eq_true_eq]
      rw [if_pos hpf]; rfl
    have hct : ((((b.modPoint f (-1)).modPoint t 1).modPoint t 1).inc_barred Player.BLACK).pointAt t
        = b.pointAt t + 2 := by
      rw [pointAt_inc_barred,
          pointAt_modPoint_self _ t 1 (by rw [length_modPoint, length_modPoint]; omega),
          pointAt_modPoint_self _ t 1 (by rw [length_modPoint]; omega),
          pointAt_modPoint_ne _ _ _ _ hn]
      ring
    rw [ha]
    simp only [undo_move, Board.is_point_of_color, decide_eq_true_eq]
    rw [if_pos (by rw [hct, hpt]; norm_num)]
    simp only [inc_point_eq_modPoint, dec_point_eq_modPoint, inc_barred_modPoint]
    rw [inc_dec_barred]
    rw [modPoint_merge (b.modPoint f (-1)) t 1 1 2 (by norm_num),
        modPoint_merge (((b.modPoint f (-1)).modPoint t 2).modPoint f 1) t (-1) (-1) (-2)
          (by norm_num)]
    exact modPoint_cancel b f t (-1) 2 1 (-2) hn (by norm_num) (by norm_num)
  | hitB f t hw h0f hf h0t ht hft hpf hpt =>
    have hn : f.toNat ≠ t.toNat := by omega
    have ha : apply_move b (Move.mk f t MoveType.NORMAL_PUT_ON_BAR)
        = (((b.modPoint f 1).modPoint t (-1)).modPoint t (-1)).inc_barred Player.WHITE := by
      simp only [apply_move, Board.is_point_of_color, decide_eq_true_eq]
      rw [if_neg (by omega)]; rfl
    have hct : ((((b.modPoint f 1).modPoint t (-1)).modPoint t (-1)).inc_barred Player.WHITE).pointAt t
        = b.pointAt t - 2 := by
      rw [pointAt_inc_barred,
          pointAt_modPoint_self _ t (-1) (by rw [length_modPoint, length_modPoint]; omega),
          pointAt_modPoint_self _ t (-1) (by rw [length_modPoint]; omega),
          pointAt_modPoint_ne _ _ _ _ hn]
      ring
    rw [ha]
    simp only [undo_move, Board.is_point_of_color, decide_eq_true_eq]
    rw [if_neg (by rw [hct, hpt]; norm_num)]
    simp only [inc_point_eq_modPoint, dec_point_eq_modPoint, inc_barred_modPoint]
    rw [inc_dec_barred]
    rw [modPoint_merge (b.modPoint f 1) t (-1) (-1) (-2) (by norm_num),
        modPoint_merge (((b.modPoint f 1).modPoint t (-2)).modPoint f (-1)) t 1 1 2
          (by norm_num)]
    exact modPoint_cancel b f t 1 (-2) (-1) 2 hn (by norm_num) (by norm_num)
  | entryW t hw h18 h23 hpt hbar =>
    have ha : apply_move b (Move.mk (-1) t MoveType.BAR_ENTRY)
        = (b.dec_barred Player.WHITE).modPoint t 1 := by
      simp only [apply_move, Board.index_in_home, decide_eq_true_eq]
      rw [if_pos ⟨by omega, by omega⟩]; rfl
    have hct : ((b.dec_barred Player.WHITE).modPoint t 1).pointAt t = b.pointAt t + 1 := by
      rw [pointAt_modPoint_self _ t 1 (by rw [length_dec_barred]; omega), pointAt_dec_barred]
    rw [ha]
    simp only [undo_move, Board.is_point_of_color, decide_eq_true_eq]
    rw [if_pos (by rw [hct]; omega)]
    simp only [dec_point_eq_modPoint, dec_barred_modPoint]
    rw [modPoint_merge b t 1 (-1) 0 (by norm_num), modPoint_zero, dec_inc_barred]
  | entryB t hw h0 h5 hpt hbar =>
    have ha : apply_move b (Move.mk (-1) t MoveType.BAR_ENTRY)
        = (b.dec_barred Player.BLACK).modPoint t (-1) := by
      simp only [apply_move, Board.index_in_home, decide_eq_true_eq]
      rw [if_neg (by omega)]; rfl
    have hct : ((b.dec_barred Player.BLACK).modPoint t (-1)).pointAt t = b.pointAt t - 1 := by
      rw [pointAt_modPoint_self _ t (-1) (by rw [length_dec_barred]; omega), pointAt_dec_barred]
      ring
    rw [ha]
    simp only [undo_move, Board.is_point_of_color, decide_eq_true_eq]
    rw [if_neg (by rw [hct]; omega)]
    simp only [inc_point_eq_modPoint, dec_barred_modPoint]
    rw [modPoint_merge b t (-1) 1 0 (by norm_num), modPoint_zero, dec_inc_barred]
  | entryHitW t hw h18 h23 hpt hbar =>
    have ha : apply_move b (Move.mk (-1) t MoveType.BAR_ENTRY_PUT_ON_BAR)
        = ((((b.modPoint t 1).dec_barred Player.WHITE).modPoint t 1).inc_barred Player.BLACK) := by
      simp only [apply_move, Board.index_in_home, decide_eq_true_eq]
      rw [if_pos ⟨by omega, by omega⟩]; rfl
    have hct : (((((b.modPoint t 1).dec_barred Player.WHITE).modPoint t 1).inc_barred
        Player.BLACK)).pointAt t = b.pointAt t + 2 := by
      rw [pointAt_inc_barred,
          pointAt_modPoint_self _ t 1 (by rw [length_dec_barred, length_modPoint]; omega),
          pointAt_dec_barred, pointAt_modPoint_self _ t 1 (by omega)]
      ring
    rw [ha]
    simp only [undo_move, Board.is_point_of_color, decide_eq_true_eq]
    rw [if_pos (by rw [hct, hpt]; norm_num)]
    simp only [dec_point_eq_modPoint, dec_barred_modPoint, inc_barred_modPoint]
    rw [inc_dec_barred, modPoint_merge (b.modPoint t 1) t 1 (-1) 0 (by norm_num), modPoint_zero,
        modPoint_merge b t 1 (-1) 0 (by norm_num), modPoint_zero, dec_inc_barred]
  | entryHitB t hw h0 h5 hpt hbar =>
    have ha : apply_move b (Move.mk (-1) t MoveType.BAR_ENTRY_PUT_ON_BAR)
        = ((((b.modPoint t (-1)).dec_barred Player.BLACK).modPoint t (-1)).inc_barred
            Player.WHITE) := by
      simp only [apply_move, Board.index_in_home, decide_eq_true_eq]
      rw [if_neg (by omega)]; rfl
    have hct : (((((b.modPoint t (-1)).dec_barred Player.BLACK).modPoint t (-1)).inc_barred
        Player.WHITE)).pointAt t = b.pointAt t - 2 := by
      rw [pointAt_inc_barred,
          pointAt_modPoint_self _ t (-1) (by rw [length_dec_barred, length_modPoint]; omega),
          pointAt_dec_barred, pointAt_modPoint_self _ t (-1) (by omega)]
      ring
    rw [ha]
    simp only [undo_move, Board.is_point_of_color, decide_eq_true_eq]
    rw [if_neg (by rw [hct, hpt]; norm_num)]
    simp only [inc_point_eq_modPoint, dec_barred_modPoint, inc_barred_modPoint]
    rw [inc_dec_barred, modPoint_merge (b.modPoint t (-1)) t (-1) 1 0 (by norm_num), modPoint_zero,
        modPoint_merge b t (-1) 1 0 (by norm_num), modPoint_zero, dec_inc_barred]
  | bearW f hw h0f hf5 hpf =>
    have ha : apply_move b (Move.mk f (-1) MoveType.BEAR_OFF)
        = (b.modPoint f (-1)).inc_offed Player.WHITE := by
      simp only [apply_move, Board.is_point_of_color, decide_eq_true_eq]
      rw [if_pos hpf]; rfl
    rw [ha]
    simp only [undo_move, Board.index_in_home, decide_eq_true_eq]
    rw [if_pos ⟨by omega, by omega⟩]
    simp only [inc_point_eq_modPoint, inc_offed_modPoint]
    rw [modPoint_merge b f (-1) 1 0 (by norm_num), modPoint_zero, inc_dec_offed]
  | bearB f hw h18 h23 hpf =>
    have ha : apply_move b (Move.mk f (-1) MoveType.BEAR_OFF)
        = (b.modPoint f 1).inc_offed Player.BLACK := by
      simp only [apply_move, Board.is_point_of_color, decide_eq_true_eq]
      rw [if_neg (by omega)]; rfl
    rw [ha]
    simp only [undo_move, Board.index_in_home, decide_eq_true_eq]
    rw [if_neg (by omega), if_pos ⟨by omega, by omega⟩]
    simp only [dec_point_eq_modPoint, inc_offed_modPoint]
    rw [modPoint_merge b f 1 (-1) 0 (by norm_num), modPoint_zero, inc_dec_offed]

theorem turn_modPoint (b : Board) (i d : Int) : (b.modPoint i d).turn = b.turn := rfl

theorem turn_inc_barred (b : Board) (p : Player) : (b.inc_barred p).turn = b.turn := by
  cases p <;> rfl

theorem turn_dec_barred (b : Board) (p : Player) : (b.dec_barred p).turn = b.turn := by
  cases p <;> rfl

theorem turn_inc_offed (b : Board) (p : Player) : (b.inc_offed p).turn = b.turn := by
  cases p <;> rfl

/-- `__apply_move` never touches the turn field. -/
theorem turn_apply_move (b : Board) (m : Move) : (apply_move b m).turn = b.turn := by
  rcases m with ⟨f, t, ty⟩
  cases ty <;> simp only [apply_move] <;> split_ifs <;>
    simp only [inc_point_eq_modPoint, dec_point_eq_modPoint, turn_modPoint, turn_inc_barred,
      turn_dec_barred, turn_inc_offed]

theorem wt_modPoint (b : Board) (i d : Int) (h : i.toNat < b.points.length) :
    whiteTotal (b.modPoint i d)
      = whiteTotal b - max (b.pointAt i) 0 + max (b.pointAt i + d) 0 := by
  simp only [whiteTotal, Board.modPoint, Board.setPoint, Board.pointAt]
  rw [sum_map_set _ _ _ _ h]
  ring

theorem bt_modPoint (b : Board) (i d : Int) (h : i.toNat < b.points.length) :
    blackTotal (b.modPoint i d)
      = blackTotal b - max (-(b.pointAt i)) 0 + max (-(b.pointAt i + d)) 0 := by
  simp only [blackTotal, Board.modPoint, Board.setPoint, Board.pointAt]
  rw [sum_map_set _ _ _ _ h]
  ring

theorem wt_inc_barredW (b : Board) :
    whiteTotal (b.inc_barred Player.WHITE) = whiteTotal b + 1 := by
  simp [whiteTotal, Board.inc_barred]; ring

theorem wt_inc_barredB (b : Board) :
    whiteTotal (b.inc_barred Player.BLACK) = whiteTotal b := rfl

theorem wt_dec_barredW (b : Board) :
    whiteTotal (b.dec_barred Player.WHITE) = whiteTotal b - 1 := by
  simp [whiteTotal, Board.dec_barred]; ring

theorem wt_dec_barredB (b : Board) :
    whiteTotal (b.dec_barred Player.BLACK) = whiteTotal b := rfl

theorem wt_inc_offedW (b : Board) :
    whiteTotal (b.inc_offed Player.WHITE) = whiteTotal b + 1 := by
  simp [whiteTotal, Board.inc_offed]; ring

theorem wt_inc_offedB (b : Board) :
    whiteTotal (b.inc_offed Player.BLACK) = whiteTotal b := rfl

theorem bt_inc_barredW (b : Board) :
    blackTotal (b.inc_barred Player.WHITE) = blackTotal b := rfl

theorem bt_inc_barredB (b : Board) :
    blackTotal (b.inc_barred Player.BLACK) = blackTotal b + 1 := by
  simp [blackTotal, Board.inc_barred]; ring

theorem bt_dec_barredW (b : Board) :
    blackTotal (b.dec_barred Player.WHITE) = blackTotal b := rfl

theorem bt_dec_barredB (b : Board) :
    blackTotal (b.dec_barred Player.BLACK) = blackTotal b - 1 := by
  simp [blackTotal, Board.dec_barred]; ring

theorem bt_inc_offedW (b : Board) :
    blackTotal (b.inc_offed Player.WHITE) = blackTotal b := rfl

theorem bt_inc_offedB (b : Board) :
    blackTotal (b.inc_offed Player.BLACK) = blackTotal b + 1 := by
  simp [blackTotal, Board.inc_offed]; ring

/-- Applying a generator-emitted move conserves both per-color checker
totals. -/
theorem legal_apply_totals (b : Board) (m : Move) (hl : LegalMoveOn b m)
    (hlen : b.points.length = 24) :
    whiteTotal (apply_move b m) = whiteTotal b ∧ blackTotal (apply_move b m) = blackTotal b := by
  cases hl with
  | normalW f t hw h0f hf h0t ht hft hpf hpt =>
    have hn : f.toNat ≠ t.toNat := by omega
    have ha : apply_move b (Move.mk f t MoveType.NORMAL) = (b.modPoint f (-1)).modPoint t 1 := by
      simp only [apply_move, Board.is_point_of_color, decide_eq_true_eq]
      rw [if_pos hpf]; rfl
    have hL : f.toNat < b.points.length := by omega
    have hL2 : t.toNat < (b.modPoint f (-1)).points.length := by rw [length_modPoint]; omega
    rw [ha, wt_modPoint _ t 1 hL2, pointAt_modPoint_ne _ _ _ _ hn, wt_modPoint _ f (-1) hL,
        bt_modPoint _ t 1 hL2, pointAt_modPoint_ne _ _ _ _ hn, bt_modPoint _ f (-1) hL]
    omega
  | normalB f t hw h0f hf h0t ht hft hpf hpt =>
    have hn : f.toNat ≠ t.toNat := by omega
    have ha : apply_move b (Move.mk f t MoveType.NORMAL) = (b.modPoint f 1).modPoint t (-1) := by
      simp only [apply_move, Board.is_point_of_color, decide_eq_true_eq]
      rw [if_neg (by omega)]; rfl
    have hL : f.toNat < b.points.length := by omega
    have hL2 : t.toNat < (b.modPoint f 1).points.length := by rw [length_modPoint]; omega
    rw [ha, wt_modPoint _ t (-1) hL2, pointAt_modPoint_ne _ _ _ _ hn, wt_modPoint _ f 1 hL,
        bt_modPoint _ t (-1) hL2, pointAt_modPoint_ne _ _ _ _ hn, bt_modPoint _ f 1 hL]
    omega
  | hitW f t hw h0f hf h0t ht hft hpf hpt =>
    have hn : f.toNat ≠ t.toNat := by omega
    have ha : apply_move b (Move.mk f t MoveType.NORMAL_PUT_ON_BAR)
        = (((b.modPoint f (-1)).modPoint t 1).modPoint t 1).inc_barred Player.BLACK := by
      simp only [apply_move, Board.is_point_of_color, decide_eq_true_eq]
      rw [if_pos hpf]; rfl
    have hL : f.toNat < b.points.length := by omega
    have hL2 : t.toNat < (b.modPoint f (-1)).points.length := by rw [length_modPoint]; omega
    have hL3 : t.toNat < ((b.modPoint f (-1)).modPoint t 1).points.length := by
      rw [length_modPoint, length_modPoint]; omega
    have hp2 : ((b.modPoint f (-1)).modPoint t 1).pointAt t = b.pointAt t + 1 := by
      rw [pointAt_modPoint_self _ t 1 hL2, pointAt_modPoint_ne _ _ _ _ hn]
    rw [ha, wt_inc_barredB, bt_inc_barredB, wt_modPoint _ t 1 hL3, hp2,
        bt_modPoint _ t 1 hL3, hp2, wt_modPoint _ t 1 hL2, pointAt_modPoint_ne _ _ _ _ hn,
        bt_modPoint _ t 1 hL2, pointAt_modPoint_ne _ _ _ _ hn,
        wt_modPoint _ f (-1) hL, bt_modPoint _ f (-1) hL]
    omega
  | hitB f t hw h0f hf h0t ht hft hpf hpt =>
    have hn : f.toNat ≠ t.toNat := by omega
    have ha : apply_move b (Move.mk f t MoveType.NORMAL_PUT_ON_BAR)
        = (((b.modPoint f 1).modPoint t (-1)).modPoint t (-1)).inc_barred Player.WHITE := by
      simp only [apply_move, Board.is_point_of_color, decide_eq_true_eq]
      rw [if_neg (by omega)]; rfl
    have hL : f.toNat < b.points.length := by omega
    have hL2 : t.toNat < (b.modPoint f 1).points.length := by rw [length_modPoint]; omega
    have hL3 : t.toNat < ((b.modPoint f 1).modPoint t (-1)).points.length := by
      rw [length_modPoint, length_modPoint]; omega
    have hp2 : ((b.modPoint f 1).modPoint t (-1)).pointAt t = b.pointAt t - 1 := by
      rw [pointAt_modPoint_self _ t (-1) hL2, pointAt_modPoint_ne _ _ _ _ hn]; ring
    rw [ha, wt_inc_barredW, bt_inc_barredW, wt_modPoint _ t (-1) hL3, hp2,
        bt_modPoint _ t (-1) hL3, hp2, wt_modPoint _ t (-1) hL2, pointAt_modPoint_ne _ _ _ _ hn,
        bt_modPoint _ t (-1) hL2, pointAt_modPoint_ne _ _ _ _ hn,
        wt_modPoint _ f 1 hL, bt_modPoint _ f 1 hL]
    omega
  | entryW t hw h18 h23 hpt hbar =>
    have ha : apply_move b (Move.mk (-1) t MoveType.BAR_ENTRY)
        = (b.dec_barred Player.WHITE).modPoint t 1 := by
      simp only [apply_move, Board.index_in_home, decide_eq_true_eq]
      rw [if_pos ⟨by omega, by omega⟩]; rfl
    have hL : t.toNat < (b.dec_barred Player.WHITE).points.length := by
      rw [length_dec_barred]; omega
    rw [ha, wt_modPoint _ t 1 hL, bt_modPoint _ t 1 hL, pointAt_dec_barred, wt_dec_barredW,
        bt_dec_barredW]
    omega
  | entryB t hw h0 h5 hpt hbar =>
    have ha : apply_move b (Move.mk (-1) t MoveType.BAR_ENTRY)
        = (b.dec_barred Player.BLACK).modPoint t (-1) := by
      simp only [apply_move, Board.index_in_home, decide_eq_true_eq]
      rw [if_neg (by omega)]; rfl
    have hL : t.toNat < (b.dec_barred Player.BLACK).points.length := by
      rw [length_dec_barred]; omega
    rw [ha, wt_modPoint _ t (-1) hL, bt_modPoint _ t (-1) hL, pointAt_dec_barred, wt_dec_barredB,
        bt_dec_barredB]
    omega
  | entryHitW t hw h18 h23 hpt hbar =>
    have ha : apply_move b (Move.mk (-1) t MoveType.BAR_ENTRY_PUT_ON_BAR)
        = ((((b.modPoint t 1).dec_barred Player.WHITE).modPoint t 1).inc_barred Player.BLACK) := by
      simp only [apply_move, Board.index_in_home, decide_eq_true_eq]
      rw [if_pos ⟨by omega, by omega⟩]; rfl
    have hL : t.toNat < b.points.length := by omega
    have hL2 : t.toNat < ((b.modPoint t 1).dec_barred Player.WHITE).points.length := by
      rw [length_dec_barred, length_modPoint]; omega
    have hp2 : ((b.modPoint t 1).dec_barred Player.WHITE).pointAt t = b.pointAt t + 1 := by
      rw [pointAt_dec_barred, pointAt_modPoint_self _ t 1 hL]
    rw [ha, wt_inc_barredB, bt_inc_barredB, wt_modPoint _ t 1 hL2, hp2, bt_modPoint _ t 1 hL2,
        hp2, wt_dec_barredW, bt_dec_barredW, wt_modPoint _ t 1 hL, bt_modPoint _ t 1 hL]
    omega
  | entryHitB t hw h0 h5 hpt hbar =>
    have ha : apply_move b (Move.mk (-1) t MoveType.BAR_ENTRY_PUT_ON_BAR)
        = ((((b.modPoint t (-1)).dec_barred Player.BLACK).modPoint t (-1)).inc_barred
            Player.WHITE) := by
      simp only [apply_move, Board.index_in_home, decide_eq_true_eq]
      rw [if_neg (by omega)]; rfl
    have hL : t.toNat < b.points.length := by omega
    have hL2 : t.toNat < ((b.modPoint t (-1)).dec_barred Player.BLACK).points.length := by
      rw [length_dec_barred, length_modPoint]; omega
    have hp2 : ((b.modPoint t (-1)).dec_barred Player.BLACK).pointAt t = b.pointAt t - 1 := by
      rw [pointAt_dec_barred, pointAt_modPoint_self _ t (-1) hL]; ring
    rw [ha, wt_inc_barredW, bt_inc_barredW, wt_modPoint _ t (-1) hL2, hp2,
        bt_modPoint _ t (-1) hL2, hp2, wt_dec_barredB, bt_dec_barredB, wt_modPoint _ t (-1) hL,
        bt_modPoint _ t (-1) hL]
    omega
  | bearW f hw h0f hf5 hpf =>
    have ha : apply_move b (Move.mk f (-1) MoveType.BEAR_OFF)
        = (b.modPoint f (-1)).inc_offed Player.WHITE := by
      simp only [apply_move, Board.is_point_of_color, decide_eq_true_eq]
      rw [if_pos hpf]; rfl
    have hL : f.toNat < b.points.length := by omega
    rw [ha, wt_inc_offedW, bt_inc_offedW, wt_modPoint _ f (-1) hL, bt_modPoint _ f (-1) hL]
    omega
  | bearB f hw h18 h23 hpf =>
    have ha : apply_move b (Move.mk f (-1) MoveType.BEAR_OFF)
        = (b.modPoint f 1).inc_offed Player.BLACK := by
      simp only [apply_move, Board.is_point_of_color, decide_eq_true_eq]
      rw [if_neg (by omega)]; rfl
    have hL : f.toNat < b.points.length := by omega
    rw [ha, wt_inc_offedB, bt_inc_offedB, wt_modPoint _ f 1 hL, bt_modPoint _ f 1 hL]
    omega

/-- `__apply_move` preserves the length of the points list. -/
theorem length_apply_move (b : Board) (m : Move) :
    (apply_move b m).points.length = b.points.length := by
  rcases m with ⟨f, t, ty⟩
  cases ty <;> simp only [apply_move] <;> split_ifs <;>
    simp only [inc_point_eq_modPoint, dec_point_eq_modPoint, length_modPoint, length_inc_barred,
      length_dec_barred, length_inc_offed]

/-- The barred/offed counters stay non-negative when a generator-emitted
move is applied. -/
theorem legal_apply_counters (b : Board) (m : Move) (hl : LegalMoveOn b m)
    (hbw : 0 ≤ b.barredWhite) (hbb : 0 ≤ b.barredBlack)
    (how : 0 ≤ b.offedWhite) (hob : 0 ≤ b.offedBlack) :
    0 ≤ (apply_move b m).barredWhite ∧ 0 ≤ (apply_move b m).barredBlack ∧
    0 ≤ (apply_move b m).offedWhite ∧ 0 ≤ (apply_move b m).offedBlack := by
  cases hl with
  | normalW f t hw h0f hf h0t ht hft hpf hpt =>
    have ha : apply_move b (Move.mk f t MoveType.NORMAL) = (b.modPoint f (-1)).modPoint t 1 := by
      simp only [apply_move, Board.is_point_of_color, decide_eq_true_eq]
      rw [if_pos hpf]; rfl
    rw [ha]
    simp only [modPoint_barredWhite, modPoint_barredBlack, modPoint_offedWhite,
      modPoint_offedBlack]
    omega
  | normalB f t hw h0f hf h0t ht hft hpf hpt =>
    have ha : apply_move b (Move.mk f t MoveType.NORMAL) = (b.modPoint f 1).modPoint t (-1) := by
      simp only [apply_move, Board.is_point_of_color, decide_eq_true_eq]
      rw [if_neg (by omega)]; rfl
    rw [ha]
    simp only [modPoint_barredWhite, modPoint_barredBlack, modPoint_offedWhite,
      modPoint_offedBlack]
    omega
  | hitW f t hw h0f hf h0t ht hft hpf hpt =>
    have ha : apply_move b (Move.mk f t MoveType.NORMAL_PUT_ON_BAR)
        = (((b.modPoint f (-1)).modPoint t 1).modPoint t 1).inc_barred Player.BLACK := by
      simp only [apply_move, Board.is_point_of_color, decide_eq_true_eq]
      rw [if_pos hpf]; rfl
    rw [ha]
    simp only [Board.inc_barred, modPoint_barredWhite, modPoint_barredBlack, modPoint_offedWhite,
      modPoint_offedBlack]
    omega
  | hitB f t hw h0f hf h0t ht hft hpf hpt =>
    have ha : apply_move b (Move.mk f t MoveType.NORMAL_PUT_ON_BAR)
        = (((b.modPoint f 1).modPoint t (-1)).modPoint t (-1)).inc_barred Player.WHITE := by
      simp only [apply_move, Board.is_point_of_color, decide_eq_true_eq]
      rw [if_neg (by omega)]; rfl
    rw [ha]
    simp only [Board.inc_barred, modPoint_barredWhite, modPoint_barredBlack, modPoint_offedWhite,
      modPoint_offedBlack]
    omega
  | entryW t hw h18 h23 hpt hbar =>
    have ha : apply_move b (Move.mk (-1) t MoveType.BAR_ENTRY)
        = (b.dec_barred Player.WHITE).modPoint t 1 := by
      simp only [apply_move, Board.index_in_home, decide_eq_true_eq]
      rw [if_pos ⟨by omega, by omega⟩]; rfl
    rw [ha]
    simp only [Board.dec_barred, modPoint_barredWhite, modPoint_barredBlack, modPoint_offedWhite,
      modPoint_offedBlack]
    omega
  | entryB t hw h0 h5 hpt hbar =>
    have ha : apply_move b (Move.mk (-1) t MoveType.BAR_ENTRY)
        = (b.dec_barred Player.BLACK).modPoint t (-1) := by
      simp only [apply_move, Board.index_in_home, decide_eq_true_eq]
      rw [if_neg (by omega)]; rfl
    rw [ha]
    simp only [Board.dec_barred, modPoint_barredWhite, modPoint_barredBlack, modPoint_offedWhite,
      modPoint_offedBlack]
    omega
  | entryHitW t hw h18 h23 hpt hbar =>
    have ha : apply_move b (Move.mk (-1) t MoveType.BAR_ENTRY_PUT_ON_BAR)
        = ((((b.modPoint t 1).dec_barred Player.WHITE).modPoint t 1).inc_barred Player.BLACK) := by
      simp only [apply_move, Board.index_in_home, decide_eq_true_eq]
      rw [if_pos ⟨by omega, by omega⟩]; rfl
    rw [ha]
    simp only [Board.dec_barred, Board.inc_barred, modPoint_barredWhite, modPoint_barredBlack,
      modPoint_offedWhite, modPoint_offedBlack]
    omega
  | entryHitB t hw h0 h5 hpt hbar =>
    have ha : apply_move b (Move.mk (-1) t MoveType.BAR_ENTRY_PUT_ON_BAR)
        = ((((b.modPoint t (-1)).dec_barred Player.BLACK).modPoint t (-1)).inc_barred
            Player.WHITE) := by
      simp only [apply_move, Board.index_in_home, decide_eq_true_eq]
      rw [if_neg (by omega)]; rfl
    rw [ha]
    simp only [Board.dec_barred, Board.inc_barred, modPoint_barredWhite, modPoint_barredBlack,
      modPoint_offedWhite, modPoint_offedBlack]
    omega
  | bearW f hw h0f hf5 hpf =>
    have ha : apply_move b (Move.mk f (-1) MoveType.BEAR_OFF)
        = (b.modPoint f (-1)).inc_offed Player.WHITE := by
      simp only [apply_move, Board.is_point_of_color, decide_eq_true_eq]
      rw [if_pos hpf]; rfl
    rw [ha]
    simp only [Board.inc_offed, modPoint_barredWhite, modPoint_barredBlack, modPoint_offedWhite,
      modPoint_offedBlack]
    omega
  | bearB f hw h18 h23 hpf =>
    have ha : apply_move b (Move.mk f (-1) MoveType.BEAR_OFF)
        = (b.modPoint f 1).inc_offed Player.BLACK := by
      simp only [apply_move, Board.is_point_of_color, decide_eq_true_eq]
      rw [if_neg (by omega)]; rfl
    rw [ha]
    simp only [Board.inc_offed, modPoint_barredWhite, modPoint_barredBlack, modPoint_offedWhite,
      modPoint_offedBlack]
    omega

/-- Applying a generator-emitted move preserves board validity. -/
theorem legal_apply_valid (b : Board) (m : Move) (hl : LegalMoveOn b m)
    (hv : ValidBoard b) : ValidBoard (apply_move b m) := by
  obtain ⟨hlen, hbw, hbb, how, hob, hwt, hbt⟩ := hv
  have htot := legal_apply_totals b m hl hlen
  have hcnt := legal_apply_counters b m hl hbw hbb how hob
  exact ⟨by rw [length_apply_move]; exact hlen, hcnt.1, hcnt.2.1, hcnt.2.2.1, hcnt.2.2.2,
    htot.1.trans hwt, htot.2.trans hbt⟩

theorem gs_not_over (b : Board) (h : game_state_for_turn b ≠ GameState.OVER) :
    b.offedWhite ≠ 15 ∧ b.offedBlack ≠ 15 := by
  unfold game_state_for_turn at h
  split_ifs at h with h1 h2 h3
  all_goals first
    | exact absurd rfl h
    | (simp only [Board.is_game_over, INIT_CHECKER_COUNT, Bool.or_eq_true,
        decide_eq_true_eq] at h1
       omega)

theorem gs_barred_pos (b : Board) (h : game_state_for_turn b = GameState.BARRED_PIECES) :
    (b.turn = Player.WHITE → 0 < b.barredWhite) ∧
    (b.turn = Player.BLACK → 0 < b.barredBlack) := by
  unfold game_state_for_turn at h
  split_ifs at h with h1 h2 h3
  constructor
  · intro ht
    rcases h2 with ⟨_, hp⟩ | ⟨hb, _⟩
    · exact hp
    · rw [ht] at hb; exact absurd hb (by decide)
  · intro ht
    rcases h2 with ⟨hb, _⟩ | ⟨_, hp⟩
    · rw [ht] at hb; exact absurd hb (by decide)
    · exact hp

theorem gs_home_white (b : Board) (h : game_state_for_turn b = GameState.BEAR_OFF)
    (hw : b.turn = Player.WHITE) :
    max (b.pointAt 0) 0 + max (b.pointAt 1) 0 + max (b.pointAt 2) 0 + max (b.pointAt 3) 0
      + max (b.pointAt 4) 0 + max (b.pointAt 5) 0 + b.offedWhite = 15 ∧ b.offedWhite ≠ 15 := by
  unfold game_state_for_turn at h
  split_ifs at h with h1 h2 h3
  refine ⟨?_, ?_⟩
  · simp only [Board.all_checkers_in_home, Player.get_home_board_range, hw, Board.offedOf,
      List.map_cons, List.map_nil, List.sum_cons, List.sum_nil, INIT_CHECKER_COUNT,
      decide_eq_true_eq] at h3
    omega
  · simp only [Board.is_game_over, INIT_CHECKER_COUNT, Bool.or_eq_true, decide_eq_true_eq] at h1
    omega

theorem gs_home_black (b : Board) (h : game_state_for_turn b = GameState.BEAR_OFF)
    (hw : b.turn = Player.BLACK) :
    max (-(b.pointAt 23)) 0 + max (-(b.pointAt 22)) 0 + max (-(b.pointAt 21)) 0
      + max (-(b.pointAt 20)) 0 + max (-(b.pointAt 19)) 0 + max (-(b.pointAt 18)) 0
      + b.offedBlack = 15 ∧ b.offedBlack ≠ 15 := by
  unfold game_state_for_turn at h
  split_ifs at h with h1 h2 h3
  refine ⟨?_, ?_⟩
  · simp only [Board.all_checkers_in_home, Player.get_home_board_range, hw, Board.offedOf,
      List.map_cons, List.map_nil, List.sum_cons, List.sum_nil, INIT_CHECKER_COUNT,
      decide_eq_true_eq] at h3
    omega
  · simp only [Board.is_game_over, INIT_CHECKER_COUNT, Bool.or_eq_true, decide_eq_true_eq] at h1
    omega

theorem white_last_spec (b : Board) (h : game_state_for_turn b = GameState.BEAR_OFF)
    (hw : b.turn = Player.WHITE) :
    0 ≤ white_last_checker b ∧ white_last_checker b ≤ 5 ∧
    0 < b.pointAt (white_last_checker b) ∧
    ∀ j : Int, white_last_checker b < j → j ≤ 5 → b.pointAt j ≤ 0 := by
  obtain ⟨hsum, hne⟩ := gs_home_white b h hw
  unfold white_last_checker
  split_ifs with h5 h4 h3 h2 h1 h0
  · exact ⟨by norm_num, by norm_num, h5, fun j hj1 hj2 => by omega⟩
  · refine ⟨by norm_num, by norm_num, h4, fun j hj1 hj2 => ?_⟩
    have : j = 5 := by omega
    subst this; omega
  · refine ⟨by norm_num, by norm_num, h3, fun j hj1 hj2 => ?_⟩
    have : j = 4 ∨ j = 5 := by omega
    rcases this with h | h <;> subst h <;> omega
  · refine ⟨by norm_num, by norm_num, h2, fun j hj1 hj2 => ?_⟩
    have : j = 3 ∨ j = 4 ∨ j = 5 := by omega
    rcases this with h | h | h <;> subst h <;> omega
  · refine ⟨by norm_num, by norm_num, h1, fun j hj1 hj2 => ?_⟩
    have : j = 2 ∨ j = 3 ∨ j = 4 ∨ j = 5 := by omega
    rcases this with h | h | h | h <;> subst h <;> omega
  · refine ⟨by norm_num, by norm_num, h0, fun j hj1 hj2 => ?_⟩
    have : j = 1 ∨ j = 2 ∨ j = 3 ∨ j = 4 ∨ j = 5 := by omega
    rcases this with h | h | h | h | h <;> subst h <;> omega
  · exact absurd hsum (by omega)

theorem black_last_spec (b : Board) (h : game_state_for_turn b = GameState.BEAR_OFF)
    (hw : b.turn = Player.BLACK) :
    18 ≤ black_last_checker b ∧ black_last_checker b ≤ 23 ∧
    b.pointAt (black_last_checker b) < 0 ∧
    ∀ j : Int, 18 ≤ j → j < black_last_checker b → 0 ≤ b.pointAt j := by
  obtain ⟨hsum, hne⟩ := gs_home_black b h hw
  unfold black_last_checker
  split_ifs with h18 h19 h20 h21 h22 h23
  · exact ⟨by norm_num, by norm_num, h18, fun j hj1 hj2 => by omega⟩
  · refine ⟨by norm_num, by norm_num, h19, fun j hj1 hj2 => ?_⟩
    have : j = 18 := by omega
    subst this; omega
  · refine ⟨by norm_num, by norm_num, h20, fun j hj1 hj2 => ?_⟩
    have : j = 18 ∨ j = 19 := by omega
    rcases this with h | h <;> subst h <;> omega
  · refine ⟨by norm_num, by norm_num, h21, fun j hj1 hj2 => ?_⟩
    have : j = 18 ∨ j = 19 ∨ j = 20 := by omega
    rcases this with h | h | h <;> subst h <;> omega
  · refine ⟨by norm_num, by norm_num, h22, fun j hj1 hj2 => ?_⟩
    have : j = 18 ∨ j = 19 ∨ j = 20 ∨ j = 21 := by omega
    rcases this with h | h | h | h <;> subst h <;> omega
  · refine ⟨by norm_num, by norm_num, h23, fun j hj1 hj2 => ?_⟩
    have : j = 18 ∨ j = 19 ∨ j = 20 ∨ j = 21 ∨ j = 22 := by omega
    rcases this with h | h | h | h | h <;> subst h <;> omega
  · exact absurd hsum (by omega)

/-- What membership in `__get_normal_moves_for_die` guarantees. -/
theorem mem_normal_moves (b : Board) (s e : Nat) (dir die : Int) (m : Move)
    (hm : m ∈ normal_moves_for_die b s e dir die) :
    ∃ idx : Int, (s : Int) ≤ idx ∧ idx < (e : Int) ∧ 0 ≤ idx ∧
      m.from_point = idx ∧ m.to_point = idx + die * dir ∧
      b.is_point_of_color idx b.turn = true ∧
      0 ≤ m.to_point ∧ m.to_point < 24 ∧
      ((m.move_type = MoveType.NORMAL ∧
          (b.is_point_of_color m.to_point b.turn = true ∨
            b.num_checkers_at_index m.to_point = 0)) ∨
       (m.move_type = MoveType.NORMAL_PUT_ON_BAR ∧
          ¬ b.is_point_of_color m.to_point b.turn = true ∧
          b.num_checkers_at_index m.to_point = 1)) := by
  simp only [normal_moves_for_die, List.mem_flatMap, rangeFromTo, List.mem_map,
    List.mem_range] at hm
  obtain ⟨idx0, ⟨a, ha, hax⟩, hmem⟩ := hm
  refine ⟨(idx0 : Int), by omega, by omega, by omega, ?_⟩
  split_ifs at hmem with hc1 hc2 hc3 hc4 <;>
    simp only [List.mem_singleton, List.not_mem_nil] at hmem
  · subst hmem
    exact ⟨rfl, rfl, hc1.1, hc2.1, hc2.2, Or.inl ⟨rfl, hc3⟩⟩
  · subst hmem
    exact ⟨rfl, rfl, hc1.1, hc2.1, hc2.2, Or.inr ⟨rfl, hc4.1, hc4.2⟩⟩

theorem player_not_white (p : Player) (h : ¬ p = Player.WHITE) : p = Player.BLACK := by
  cases p
  · exact absurd rfl h
  · rfl

/-- Every move emitted by `__get_possible_moves_for_die` for a die in 1..6
satisfies the `LegalMoveOn` facts. -/
theorem mem_moves_legal (b : Board) (d : Int) (hd1 : 1 ≤ d) (hd6 : d ≤ 6) (m : Move)
    (hm : m ∈ get_possible_moves_for_die b d) : LegalMoveOn b m := by
  unfold get_possible_moves_for_die at hm
  split at hm
  case h_1 hgs =>
    -- NORMAL regime
    rw [List.mem_dedup] at hm
    obtain ⟨idx, hs, he, h0, hf, ht, hcol, h0t, ht24, hocc⟩ := mem_normal_moves _ _ _ _ _ _ hm
    by_cases hw : b.turn = Player.WHITE
    · rw [hw] at hcol
      simp only [Board.is_point_of_color, decide_eq_true_eq] at hcol
      have hdir : m.to_point = idx - d := by
        rw [ht, hw]
        simp
        omega
      rcases hocc with ⟨hty, hdest⟩ | ⟨hty, hdest1, hdest2⟩
      · rcases m with ⟨mf, mt, mty⟩
        simp only at hf ht hty hdir h0t ht24
        subst hf hty
        have hdst : 0 ≤ b.pointAt mt := by
          rcases hdest with hcl | hz
          · rw [hw] at hcl; simp only [Board.is_point_of_color, decide_eq_true_eq] at hcl; omega
          · simp only [Board.num_checkers_at_index, abs_eq_zero] at hz; omega
        exact LegalMoveOn.normalW mf mt hw h0 (by omega) h0t ht24 (by omega) hcol hdst
      · rcases m with ⟨mf, mt, mty⟩
        simp only at hf ht hty hdir h0t ht24
        subst hf hty
        have hdst : b.pointAt mt = -1 := by
          rw [hw] at hdest1
          simp only [Board.is_point_of_color, decide_eq_true_eq, not_lt] at hdest1
          simp only [Board.num_checkers_at_index] at hdest2
          have := abs_eq (by norm_num : (0 : Int) ≤ 1) |>.mp hdest2
          omega
        exact LegalMoveOn.hitW mf mt hw h0 (by omega) h0t ht24 (by omega) hcol hdst
    · have hb2 : b.turn = Player.BLACK := player_not_white _ hw
      rw [hb2] at hcol
      simp only [Board.is_point_of_color, decide_eq_true_eq] at hcol
      have hdir : m.to_point = idx + d := by
        rw [ht, hb2]
        simp
      rcases hocc with ⟨hty, hdest⟩ | ⟨hty, hdest1, hdest2⟩
      · rcases m with ⟨mf, mt, mty⟩
        simp only at hf ht hty hdir h0t ht24
        subst hf hty
        have hdst : b.pointAt mt ≤ 0 := by
          rcases hdest with hcl | hz
          · rw [hb2] at hcl; simp only [Board.is_point_of_color, decide_eq_true_eq] at hcl; omega
          · simp only [Board.num_checkers_at_index, abs_eq_zero] at hz; omega
        exact LegalMoveOn.normalB mf mt hb2 h0 (by omega) h0t ht24 (by omega) hcol hdst
      · rcases m with ⟨mf, mt, mty⟩
        simp only at hf ht hty hdir h0t ht24
        subst hf hty
        have hdst : b.pointAt mt = 1 := by
          rw [hb2] at hdest1
          simp only [Board.is_point_of_color, decide_eq_true_eq, not_lt] at hdest1
          simp only [Board.num_checkers_at_index] at hdest2
          have := abs_eq (by norm_num : (0 : Int) ≤ 1) |>.mp hdest2
          omega
        exact LegalMoveOn.hitB mf mt hb2 h0 (by omega) h0t ht24 (by omega) hcol hdst
  case h_2 hgs =>
    -- BARRED_PIECES regime
    have hbar := gs_barred_pos b hgs
    split at hm
    case h_1 hw =>
      have hbw : 0 < b.barredWhite := hbar.1 hw
      simp only [] at hm
      split_ifs at hm with hc1 hc2 <;> simp only [List.mem_singleton, List.not_mem_nil] at hm
      · subst hm
        have hp : 0 ≤ b.pointAt (NUM_PLAYABLE_POINTS - d) := by
          rcases hc1 with hcl | hz
          · rw [hw] at hcl; simp only [Board.is_point_of_color, decide_eq_true_eq] at hcl; omega
          · simp only [Board.num_checkers_at_index, abs_eq_zero] at hz; omega
        exact LegalMoveOn.entryW _ hw (by simp [NUM_PLAYABLE_POINTS]; omega)
          (by simp [NUM_PLAYABLE_POINTS]; omega) hp hbw
      · subst hm
        have hp : b.pointAt (NUM_PLAYABLE_POINTS - d) = -1 := by
          rw [hw] at hc2
          obtain ⟨hn, h1⟩ := hc2
          simp only [Board.is_point_of_color, decide_eq_true_eq, not_lt] at hn
          simp only [Board.num_checkers_at_index] at h1
          have := abs_eq (by norm_num : (0 : Int) ≤ 1) |>.mp h1
          omega
        exact LegalMoveOn.entryHitW _ hw (by simp [NUM_PLAYABLE_POINTS]; omega)
          (by simp [NUM_PLAYABLE_POINTS]; omega) hp hbw
    case h_2 hw =>
      have hbb : 0 < b.barredBlack := hbar.2 hw
      simp only [] at hm
      split_ifs at hm with hc1 hc2 <;> simp only [List.mem_singleton, List.not_mem_nil] at hm
      · subst hm
        have hp : b.pointAt (d - 1) ≤ 0 := by
          rcases hc1 with hcl | hz
          · rw [hw] at hcl; simp only [Board.is_point_of_color, decide_eq_true_eq] at hcl; omega
          · simp only [Board.num_checkers_at_index, abs_eq_zero] at hz; omega
        exact LegalMoveOn.entryB _ hw (by omega) (by omega) hp hbb
      · subst hm
        have hp : b.pointAt (d - 1) = 1 := by
          rw [hw] at hc2
          obtain ⟨hn, h1⟩ := hc2
          simp only [Board.is_point_of_color, decide_eq_true_eq, not_lt] at hn
          simp only [Board.num_checkers_at_index] at h1
          have := abs_eq (by norm_num : (0 : Int) ≤ 1) |>.mp h1
          omega
        exact LegalMoveOn.entryHitB _ hw (by omega) (by omega) hp hbb
  case h_3 hgs =>
    -- BEAR_OFF regime
    split at hm
    case h_1 hw =>
      obtain ⟨hl0, hl5, hlp, _⟩ := white_last_spec b hgs hw
      rw [List.mem_dedup, List.append_assoc, List.mem_append, List.mem_append] at hm
      rcases hm with hm | hm | hm
      · obtain ⟨idx, hs, he, h0, hf, ht, hcol, h0t, ht24, hocc⟩ := mem_normal_moves _ _ _ _ _ _ hm
        rw [hw] at hcol
        simp only [Board.is_point_of_color, decide_eq_true_eq] at hcol
        rcases hocc with ⟨hty, hdest⟩ | ⟨hty, hdest1, hdest2⟩
        · rcases m with ⟨mf, mt, mty⟩
          simp only at hf ht hty h0t ht24
          subst hf hty
          have hdst : 0 ≤ b.pointAt mt := by
            rcases hdest with hcl | hz
            · rw [hw] at hcl
              simp only [Board.is_point_of_color, decide_eq_true_eq] at hcl; omega
            · simp only [Board.num_checkers_at_index, abs_eq_zero] at hz; omega
          exact LegalMoveOn.normalW mf mt hw h0 (by omega) h0t ht24
            (by rw [ht]; omega) hcol hdst
        · rcases m with ⟨mf, mt, mty⟩
          simp only at hf ht hty h0t ht24
          subst hf hty
          have hdst : b.pointAt mt = -1 := by
            rw [hw] at hdest1
            simp only [Board.is_point_of_color, decide_eq_true_eq, not_lt] at hdest1
            simp only [Board.num_checkers_at_index] at hdest2
            have := abs_eq (by norm_num : (0 : Int) ≤ 1) |>.mp hdest2
            omega
          exact LegalMoveOn.hitW mf mt hw h0 (by omega) h0t ht24
            (by rw [ht]; omega) hcol hdst
      · split_ifs at hm with hc
        · simp only [List.mem_singleton] at hm
          subst hm
          exact LegalMoveOn.bearW _ hw hl0 hl5 hlp
        · simp at hm
      · split_ifs at hm with hc
        · simp only [List.mem_singleton] at hm
          subst hm
          exact LegalMoveOn.bearW _ hw (by omega) (by omega) hc
        · simp at hm
    case h_2 hw =>
      obtain ⟨hl0, hl5, hlp, _⟩ := black_last_spec b hgs hw
      rw [List.mem_dedup, List.append_assoc, List.mem_append, List.mem_append] at hm
      rcases hm with hm | hm | hm
      · obtain ⟨idx, hs, he, h0, hf, ht, hcol, h0t, ht24, hocc⟩ := mem_normal_moves _ _ _ _ _ _ hm
        rw [hw] at hcol
        simp only [Board.is_point_of_color, decide_eq_true_eq] at hcol
        rcases hocc with ⟨hty, hdest⟩ | ⟨hty, hdest1, hdest2⟩
        · rcases m with ⟨mf, mt, mty⟩
          simp only at hf ht hty h0t ht24
          subst hf hty
          have hdst : b.pointAt mt ≤ 0 := by
            rcases hdest with hcl | hz
            · rw [hw] at hcl
              simp only [Board.is_point_of_color, decide_eq_true_eq] at hcl; omega
            · simp only [Board.num_checkers_at_index, abs_eq_zero] at hz; omega
          exact LegalMoveOn.normalB mf mt hw h0 (by omega) h0t ht24
            (by rw [ht]; omega) hcol hdst
        · rcases m with ⟨mf, mt, mty⟩
          simp only at hf ht hty h0t ht24
          subst hf hty
          have hdst : b.pointAt mt = 1 := by
            rw [hw] at hdest1
            simp only [Board.is_point_of_color, decide_eq_true_eq, not_lt] at hdest1
            simp only [Board.num_checkers_at_index] at hdest2
            have := abs_eq (by norm_num : (0 : Int) ≤ 1) |>.mp hdest2
            omega
          exact LegalMoveOn.hitB mf mt hw h0 (by omega) h0t ht24
            (by rw [ht]; omega) hcol hdst
      · split_ifs at hm with hc
        · simp only [List.mem_singleton] at hm
          subst hm
          exact LegalMoveOn.bearB _ hw hl0 hl5 hlp
        · simp at hm
      · split_ifs at hm with hc
        · simp only [List.mem_singleton] at hm
          subst hm
          exact LegalMoveOn.bearB _ hw (by simp [NUM_PLAYABLE_POINTS]; omega)
            (by simp [NUM_PLAYABLE_POINTS]; omega) hc
        · simp at hm
  case h_4 hgs =>
    simp at hm

/-- The candidate loop restores the board and collects exactly the pure
results, provided every candidate was generated on the entry board. -/
theorem rollsLoop_spec (d : Int) (ds : List Int) (hd1 : 1 ≤ d) (hd6 : d ≤ 6)
    (hstep : ∀ b2 mvs, ValidBoard b2 → get_move_rolls b2 ds mvs = (b2, pure_rolls b2 ds mvs)) :
    ∀ (cand : List Move) (b : Board) (moves : List Move), ValidBoard b →
      (∀ m ∈ cand, m ∈ get_possible_moves_for_die b d) →
      rollsLoop (fun b2 mvs => get_move_rolls b2 ds mvs) b cand moves
        = (b, cand.flatMap (fun m => pure_rolls (apply_move b m) ds (moves ++ [m]))) := by
  intro cand
  induction cand with
  | nil => intro b moves _ _; simp [rollsLoop]
  | cons m ms ih =>
    intro b moves hv hc
    have hmem := hc m (by simp)
    have hleg := mem_moves_legal b d hd1 hd6 m hmem
    have hv2 := legal_apply_valid b m hleg hv
    simp only [rollsLoop]
    rw [hstep _ _ hv2]
    simp only
    rw [legal_undo_apply b m hleg hv.1]
    rw [ih b moves hv (fun x hx => hc x (by simp [hx]))]
    simp

/-- `__get_move_rolls` leaves the shared board exactly as it found it and
agrees with the purely functional search, on valid boards with dice in
1..6. -/
theorem get_move_rolls_eq_pure (ds : List Int) :
    (∀ x ∈ ds, 1 ≤ x ∧ x ≤ 6) → ∀ b moves, ValidBoard b →
      get_move_rolls b ds moves = (b, pure_rolls b ds moves) := by
  induction ds with
  | nil => intro _ b moves _; simp [get_move_rolls, pure_rolls]
  | cons d ds ih =>
    intro hb b moves hv
    have hd := hb d (by simp)
    have hstep : ∀ b2 mvs, ValidBoard b2 →
        get_move_rolls b2 ds mvs = (b2, pure_rolls b2 ds mvs) :=
      fun b2 mvs hv2 => ih (fun x hx => hb x (by simp [hx])) b2 mvs hv2
    simp only [get_move_rolls]
    rw [rollsLoop_spec d ds hd.1 hd.2 hstep _ b moves hv (fun _ h => h)]
    simp only [pure_rolls]

/-- Every sequence produced by the pure search extends the accumulator by
a legal chain of moves. -/
theorem mem_pure_rolls (ds : List Int) : ∀ (b : Board) (moves seq : List Move),
    seq ∈ pure_rolls b ds moves → ∃ tl, seq = moves ++ tl ∧ ChainLegal b ds tl := by
  induction ds with
  | nil =>
    intro b moves seq h
    simp only [pure_rolls] at h
    split_ifs at h with he
    · simp at h
    · simp only [List.mem_singleton] at h
      exact ⟨[], by simp [h], ChainLegal.nil b⟩
  | cons d ds ih =>
    intro b moves seq h
    simp only [pure_rolls, List.mem_flatMap] at h
    obtain ⟨m, hm, hseq⟩ := h
    obtain ⟨tl, rfl, hch⟩ := ih _ _ _ hseq
    exact ⟨m :: tl, by simp, ChainLegal.cons _ _ _ _ _ hm hch⟩

theorem apply_move_roll_cons (b : Board) (m : Move) (ms : List Move) :
    apply_move_roll b (m :: ms) = apply_move_roll (apply_move b m) ms := by
  simp [apply_move_roll]

theorem undo_move_roll_cons (b : Board) (m : Move) (ms : List Move) :
    undo_move_roll b (m :: ms) = undo_move (undo_move_roll b ms) m := by
  simp [undo_move_roll, List.foldl_append]

/-- Validity is preserved along a legal chain. -/
theorem chain_valid {b : Board} {ds : List Int} {tl : List Move} (hch : ChainLegal b ds tl) :
    (∀ x ∈ ds, 1 ≤ x ∧ x ≤ 6) → ValidBoard b → ValidBoard (apply_move_roll b tl) := by
  induction hch with
  | nil => intro _ hv; simpa [apply_move_roll] using hv
  | cons b d ds m ms hm hch ih =>
    intro hb hv
    have hd := hb d (by simp)
    have hleg := mem_moves_legal b d hd.1 hd.2 m hm
    rw [apply_move_roll_cons]
    exact ih (fun x hx => hb x (by simp [hx])) (legal_apply_valid b m hleg hv)

/-- Undoing a legal chain in LIFO order restores the starting board. -/
theorem chain_undo {b : Board} {ds : List Int} {tl : List Move} (hch : ChainLegal b ds tl) :
    (∀ x ∈ ds, 1 ≤ x ∧ x ≤ 6) → ValidBoard b →
    undo_move_roll (apply_move_roll b tl) tl = b := by
  induction hch with
  | nil => intro _ _; simp [apply_move_roll, undo_move_roll]
  | cons b d ds m ms hm hch ih =>
    intro hb hv
    have hd := hb d (by simp)
    have hleg := mem_moves_legal b d hd.1 hd.2 m hm
    have hv2 := legal_apply_valid b m hleg hv
    rw [apply_move_roll_cons, undo_move_roll_cons,
        ih (fun x hx => hb x (by simp [hx])) hv2, legal_undo_apply b m hleg hv.1]

theorem turn_apply_move_roll (ms : List Move) : ∀ b : Board,
    (apply_move_roll b ms).turn = b.turn := by
  induction ms with
  | nil => intro b; simp [apply_move_roll]
  | cons m ms ih => intro b; rw [apply_move_roll_cons, ih, turn_apply_move]

/-- Each move of a legal chain is generated by the per-die generator on
the board reached by applying the moves before it. -/
theorem chain_index {b : Board} {ds : List Int} {tl : List Move} (hch : ChainLegal b ds tl) :
    ∀ i (h : i < tl.length), ∃ d, d ∈ ds ∧
      tl.get ⟨i, h⟩ ∈ get_possible_moves_for_die (apply_move_roll b (tl.take i)) d := by
  induction hch with
  | nil => intro i h; simp at h
  | cons b d ds m ms hm hch ih =>
    intro i h
    cases i with
    | zero => exact ⟨d, by simp, by simpa [apply_move_roll] using hm⟩
    | succ n =>
      obtain ⟨d2, hd2, hmem⟩ := ih n (by simpa using h)
      refine ⟨d2, by simp [hd2], ?_⟩
      simpa [apply_move_roll] using hmem

/-- `get_possible_move_rolls` equals the §4.3 policy over the pure search,
and in particular returns the board unchanged. -/
theorem possible_move_rolls_eq_spec (b : Board) (d1 d2 : Int) (hv : ValidBoard b)
    (h11 : 1 ≤ d1) (h16 : d1 ≤ 6) (h21 : 1 ≤ d2) (h26 : d2 ≤ 6) :
    get_possible_move_rolls b (d1, d2) = (b, move_rolls_spec b d1 d2) := by
  have hswapa : (if d1 < d2 then d2 else d1) = max d1 d2 := by split_ifs <;> omega
  have hswapc : (if d1 < d2 then d1 else d2) = min d1 d2 := by split_ifs <;> omega
  have hA1 : 1 ≤ max d1 d2 := by omega
  have hA6 : max d1 d2 ≤ 6 := by omega
  have hC1 : 1 ≤ min d1 d2 := by omega
  have hC6 : min d1 d2 ≤ 6 := by omega
  have hb4 : ∀ x ∈ [max d1 d2, max d1 d2, max d1 d2, max d1 d2], 1 ≤ x ∧ x ≤ 6 := by
    intro x hx; simp at hx; omega
  have hb3 : ∀ x ∈ [max d1 d2, max d1 d2, max d1 d2], 1 ≤ x ∧ x ≤ 6 := by
    intro x hx; simp at hx; omega
  have hb2 : ∀ x ∈ [max d1 d2, max d1 d2], 1 ≤ x ∧ x ≤ 6 := by
    intro x hx; simp at hx; omega
  have hb1 : ∀ x ∈ [max d1 d2], 1 ≤ x ∧ x ≤ 6 := by
    intro x hx; simp at hx; omega
  have hbp : ∀ x ∈ [max d1 d2, min d1 d2], 1 ≤ x ∧ x ≤ 6 := by
    intro x hx; simp at hx; rcases hx with h | h <;> omega
  have hbq : ∀ x ∈ [min d1 d2, max d1 d2], 1 ≤ x ∧ x ≤ 6 := by
    intro x hx; simp at hx; rcases hx with h | h <;> omega
  unfold get_possible_move_rolls move_rolls_spec
  simp only [hswapa, hswapc,
    get_move_rolls_eq_pure _ hb4 b [] hv, get_move_rolls_eq_pure _ hb3 b [] hv,
    get_move_rolls_eq_pure _ hb2 b [] hv, get_move_rolls_eq_pure _ hb1 b [] hv,
    get_move_rolls_eq_pure _ hbp b [] hv, get_move_rolls_eq_pure _ hbq b [] hv]
  split_ifs <;> rfl

/-- Every recorded sequence of the top-level generator is a legal chain
from the entry board, for dice drawn from the roll. -/
theorem mem_possible_move_rolls (b : Board) (d1 d2 : Int) (hv : ValidBoard b)
    (h11 : 1 ≤ d1) (h16 : d1 ≤ 6) (h21 : 1 ≤ d2) (h26 : d2 ≤ 6) (ms : List Move)
    (hm : ms ∈ (get_possible_move_rolls b (d1, d2)).2) :
    ∃ ds, (∀ x ∈ ds, 1 ≤ x ∧ x ≤ 6) ∧ ChainLegal b ds ms := by
  rw [possible_move_rolls_eq_spec b d1 d2 hv h11 h16 h21 h26] at hm
  simp only at hm
  unfold move_rolls_spec at hm
  simp only [] at hm
  have hA1 : 1 ≤ max d1 d2 := by omega
  have hA6 : max d1 d2 ≤ 6 := by omega
  have hC1 : 1 ≤ min d1 d2 := by omega
  have hC6 : min d1 d2 ≤ 6 := by omega
  split_ifs at hm with hdd he4 he3 he2 heb he1
  · obtain ⟨tl, htl, hch⟩ := mem_pure_rolls _ _ _ _ hm
    exact ⟨[max d1 d2],
      by intro x hx; simp at hx; omega, by simpa [htl] using hch⟩
  · obtain ⟨tl, htl, hch⟩ := mem_pure_rolls _ _ _ _ hm
    exact ⟨[max d1 d2, max d1 d2],
      by intro x hx; simp at hx; omega, by simpa [htl] using hch⟩
  · obtain ⟨tl, htl, hch⟩ := mem_pure_rolls _ _ _ _ hm
    exact ⟨[max d1 d2, max d1 d2, max d1 d2],
      by intro x hx; simp at hx; omega, by simpa [htl] using hch⟩
  · obtain ⟨tl, htl, hch⟩ := mem_pure_rolls _ _ _ _ hm
    exact ⟨[max d1 d2, max d1 d2, max d1 d2, max d1 d2],
      by intro x hx; simp at hx; omega, by simpa [htl] using hch⟩
  · simp only [List.mem_map] at hm
    obtain ⟨m, hmm, rfl⟩ := hm
    exact ⟨[min d1 d2], by intro x hx; simp at hx; omega,
      ChainLegal.cons _ _ _ _ _ hmm (ChainLegal.nil _)⟩
  · simp only [List.mem_map] at hm
    obtain ⟨m, hmm, rfl⟩ := hm
    exact ⟨[max d1 d2], by intro x hx; simp at hx; omega,
      ChainLegal.cons _ _ _ _ _ hmm (ChainLegal.nil _)⟩
  · rw [List.mem_append] at hm
    rcases hm with hm | hm
    · obtain ⟨tl, htl, hch⟩ := mem_pure_rolls _ _ _ _ hm
      exact ⟨[max d1 d2, min d1 d2],
        by intro x hx; simp at hx; rcases hx with h | h <;> omega, by simpa [htl] using hch⟩
    · obtain ⟨tl, htl, hch⟩ := mem_pure_rolls _ _ _ _ hm
      exact ⟨[min d1 d2, max d1 d2],
        by intro x hx; simp at hx; rcases hx with h | h <;> omega, by simpa [htl] using hch⟩

theorem gs_no_bar (b : Board)
    (hq : game_state_for_turn b = GameState.NORMAL ∨
      game_state_for_turn b = GameState.BEAR_OFF) :
    b.barredOf b.turn ≤ 0 := by
  unfold game_state_for_turn at hq
  split_ifs at hq with h1 h2 h3
  · rcases hq with h | h <;> exact absurd h (by decide)
  · rcases hq with h | h <;> exact absurd h (by decide)
  all_goals
    simp only [not_or] at h2
    cases ht : b.turn
    · simp only [Board.barredOf]
      have := h2.1
      rw [ht] at this
      simp at this
      omega
    · simp only [Board.barredOf]
      have := h2.2
      rw [ht] at this
      simp at this
      omega

/-- While the mover has a barred checker, the per-die generator emits only
bar entries at the die's entry point, with the §4.3 occupancy rules. -/
theorem mem_moves_barred (b : Board) (d : Int) (m : Move)
    (hm : m ∈ get_possible_moves_for_die b d) (hbar : 0 < b.barredOf b.turn) :
    (m.move_type = MoveType.BAR_ENTRY ∨ m.move_type = MoveType.BAR_ENTRY_PUT_ON_BAR) ∧
    m.to_point = entry_point b.turn d ∧
    opp_count_at b m.to_point ≤ 1 ∧
    (m.move_type = MoveType.BAR_ENTRY_PUT_ON_BAR ↔ opp_count_at b m.to_point = 1) := by
  unfold get_possible_moves_for_die at hm
  split at hm
  case h_1 hgs => exact absurd hbar (by have := gs_no_bar b (Or.inl hgs); omega)
  case h_3 hgs => exact absurd hbar (by have := gs_no_bar b (Or.inr hgs); omega)
  case h_4 hgs => simp at hm
  case h_2 hgs =>
    split at hm
    case h_1 hw =>
      simp only [] at hm
      split_ifs at hm with hc1 hc2 <;> simp only [List.mem_singleton, List.not_mem_nil] at hm
      · subst hm
        have hp : 0 ≤ b.pointAt (NUM_PLAYABLE_POINTS - d) := by
          rcases hc1 with hcl | hz
          · rw [hw] at hcl
            simp only [Board.is_point_of_color, decide_eq_true_eq] at hcl
            omega
          · simp only [Board.num_checkers_at_index, abs_eq_zero] at hz
            omega
        refine ⟨Or.inl rfl, by rw [hw]; rfl, ?_, ?_⟩
        · simp only [opp_count_at, hw]
          omega
        · simp only [opp_count_at, hw]
          constructor
          · intro h; exact absurd h (by decide)
          · intro h; omega
      · subst hm
        have hp : b.pointAt (NUM_PLAYABLE_POINTS - d) = -1 := by
          rw [hw] at hc2
          obtain ⟨hn, h1⟩ := hc2
          simp only [Board.is_point_of_color, decide_eq_true_eq, not_lt] at hn
          simp only [Board.num_checkers_at_index] at h1
          have := abs_eq (by norm_num : (0 : Int) ≤ 1) |>.mp h1
          omega
        refine ⟨Or.inr rfl, by rw [hw]; rfl, ?_, ?_⟩
        · simp only [opp_count_at, hw, hp]
          norm_num
        · simp only [opp_count_at, hw, hp]
          constructor
          · intro _; norm_num
          · intro _; trivial
    case h_2 hw =>
      simp only [] at hm
      split_ifs at hm with hc1 hc2 <;> simp only [List.mem_singleton, List.not_mem_nil] at hm
      · subst hm
        have hp : b.pointAt (d - 1) ≤ 0 := by
          rcases hc1 with hcl | hz
          · rw [hw] at hcl
            simp only [Board.is_point_of_color, decide_eq_true_eq] at hcl
            omega
          · simp only [Board.num_checkers_at_index, abs_eq_zero] at hz
            omega
        refine ⟨Or.inl rfl, by rw [hw]; rfl, ?_, ?_⟩
        · simp only [opp_count_at, hw]
          omega
        · simp only [opp_count_at, hw]
          constructor
          · intro h; exact absurd h (by decide)
          · intro h; omega
      · subst hm
        have hp : b.pointAt (d - 1) = 1 := by
          rw [hw] at hc2
          obtain ⟨hn, h1⟩ := hc2
          simp only [Board.is_point_of_color, decide_eq_true_eq, not_lt] at hn
          simp only [Board.num_checkers_at_index] at h1
          have := abs_eq (by norm_num : (0 : Int) ≤ 1) |>.mp h1
          omega
        refine ⟨Or.inr rfl, by rw [hw]; rfl, ?_, ?_⟩
        · simp only [opp_count_at, hw, hp]
          norm_num
        · simp only [opp_count_at, hw, hp]
          constructor
          · intro _; norm_num
          · intro _; trivial

theorem mem_normal_moves_intro (b : Board) (s e : Nat) (dir die : Int) (f t : Int)
    (ty : MoveType) (hf0 : (s : Int) ≤ f) (hfe : f < (e : Int))
    (hcol : b.is_point_of_color f b.turn = true) (hnum : 0 < b.num_checkers_at_index f)
    (ht : t = f + die * dir) (h0t : 0 ≤ t) (ht24 : t < 24)
    (hocc : (ty = MoveType.NORMAL ∧
        (b.is_point_of_color t b.turn = true ∨ b.num_checkers_at_index t = 0)) ∨
      (ty = MoveType.NORMAL_PUT_ON_BAR ∧
        ¬ b.is_point_of_color t b.turn = true ∧ b.num_checkers_at_index t = 1)) :
    Move.mk f t ty ∈ normal_moves_for_die b s e dir die := by
  simp only [normal_moves_for_die, List.mem_flatMap, rangeFromTo, List.mem_map, List.mem_range]
  refine ⟨f.toNat, ⟨f.toNat - s, by omega, by omega⟩, ?_⟩
  have hfc : ((f.toNat : Nat) : Int) = f := by omega
  rw [hfc]
  rw [if_pos ⟨hcol, hnum⟩]
  rw [if_pos (show 0 ≤ f + die * dir ∧ f + die * dir < NUM_PLAYABLE_POINTS by
    rw [← ht]; exact ⟨h0t, ht24⟩)]
  rcases hocc with ⟨hty, hd⟩ | ⟨hty, hd1, hd2⟩
  · subst hty
    rw [if_pos (by rw [← ht]; exact hd)]
    simp [ht]
  · subst hty
    rw [if_neg (by
      rw [← ht]
      rintro (hc | hz)
      · exact hd1 hc
      · omega)]
    rw [if_pos (by rw [← ht]; exact ⟨hd1, hd2⟩)]
    simp [ht]

/-- In the BEAR_OFF regime the per-die candidates are exactly those the
spec describes (within-home normal/hit moves, the exact-pip bear-off, and
the overage bear-off of the most advanced checker). -/
theorem bear_off_iff (b : Board) (d : Int) (hd1 : 1 ≤ d) (hd6 : d ≤ 6)
    (hgs : game_state_for_turn b = GameState.BEAR_OFF) (m : Move) :
    m ∈ get_possible_moves_for_die b d ↔ bear_off_moves_spec b d m := by
  cases hw : b.turn
  case WHITE =>
    obtain ⟨hl0, hl5, hlp, hlmax⟩ := white_last_spec b hgs hw
    simp only [get_possible_moves_for_die, bear_off_moves_spec, hgs, hw]
    rw [List.mem_dedup, List.append_assoc, List.mem_append, List.mem_append]
    constructor
    · rintro (hm | hm | hm)
      · obtain ⟨idx, hs, he, h0, hf, ht, hcol, h0t, ht24, hocc⟩ :=
          mem_normal_moves _ _ _ _ _ _ hm
        rw [hw] at hcol
        simp only [Board.is_point_of_color, decide_eq_true_eq] at hcol
        rcases hocc with ⟨hty, hdest⟩ | ⟨hty, hd1t, hd2t⟩
        · refine Or.inl ⟨hty, by omega, by omega, by omega, h0t, by rw [hf]; exact hcol, ?_⟩
          rcases hdest with hcl | hz
          · rw [hw] at hcl
            simp only [Board.is_point_of_color, decide_eq_true_eq] at hcl
            omega
          · simp only [Board.num_checkers_at_index, abs_eq_zero] at hz
            omega
        · refine Or.inr (Or.inl ⟨hty, by omega, by omega, by omega, h0t,
            by rw [hf]; exact hcol, ?_⟩)
          rw [hw] at hd1t
          simp only [Board.is_point_of_color, decide_eq_true_eq, not_lt] at hd1t
          simp only [Board.num_checkers_at_index] at hd2t
          have := abs_eq (by norm_num : (0 : Int) ≤ 1) |>.mp hd2t
          omega
      · split_ifs at hm with hc
        · simp only [List.mem_singleton] at hm
          subst hm
          by_cases hex : 0 < b.pointAt (d - 1)
          · have hle : d - 1 ≤ white_last_checker b := by
              by_contra hlt
              push_neg at hlt
              have := hlmax (d - 1) hlt (by omega)
              omega
            have heq : white_last_checker b = d - 1 := by omega
            exact Or.inr (Or.inr (Or.inl ⟨rfl, rfl, by simp [heq], hex⟩))
          · exact Or.inr (Or.inr (Or.inr ⟨rfl, rfl, hex, hl0, hl5, hlp, hlmax,
              show white_last_checker b + 1 ≤ d by omega⟩))
        · simp at hm
      · split_ifs at hm with hc
        · simp only [List.mem_singleton] at hm
          subst hm
          exact Or.inr (Or.inr (Or.inl ⟨rfl, rfl, rfl, hc⟩))
        · simp at hm
    · rintro (⟨hty, h0f, h5f, htt, h0t, hpf, hpt⟩ | ⟨hty, h0f, h5f, htt, h0t, hpf, hpt⟩ |
        ⟨hty, htt, hff, hex⟩ | ⟨hty, htt, hnex, h0f, h5f, hpf, hmax, hdle⟩)
      · left
        rcases m with ⟨mf, mt, mty⟩
        simp only at hty h0f h5f htt h0t hpf hpt
        subst hty
        apply mem_normal_moves_intro b 0 6 (-1) d mf mt MoveType.NORMAL (by omega) (by omega)
          (by rw [hw]; simp only [Board.is_point_of_color, decide_eq_true_eq]; exact hpf)
          (by simp only [Board.num_checkers_at_index]; exact abs_pos.mpr (by omega))
          (by omega) h0t (by omega)
        rcases lt_or_eq_of_le hpt with hlt | heq
        · exact Or.inl ⟨rfl, Or.inl (by
            rw [hw]; simp only [Board.is_point_of_color, decide_eq_true_eq]; exact hlt)⟩
        · exact Or.inl ⟨rfl, Or.inr (by
            simp only [Board.num_checkers_at_index, abs_eq_zero]; omega)⟩
      · left
        rcases m with ⟨mf, mt, mty⟩
        simp only at hty h0f h5f htt h0t hpf hpt
        subst hty
        apply mem_normal_moves_intro b 0 6 (-1) d mf mt MoveType.NORMAL_PUT_ON_BAR (by omega)
          (by omega)
          (by rw [hw]; simp only [Board.is_point_of_color, decide_eq_true_eq]; exact hpf)
          (by simp only [Board.num_checkers_at_index]; exact abs_pos.mpr (by omega))
          (by omega) h0t (by omega)
        refine Or.inr ⟨rfl, ?_, ?_⟩
        · rw [hw]
          simp only [Board.is_point_of_color, decide_eq_true_eq, not_lt]
          omega
        · simp only [Board.num_checkers_at_index, hpt]
          norm_num
      · right; right
        rw [if_pos hex]
        rcases m with ⟨mf, mt, mty⟩
        simp only at hty htt hff
        subst hty; subst htt; subst hff
        simp
      · right; left
        have h1 : white_last_checker b ≤ m.from_point := by
          by_contra hlt
          push_neg at hlt
          have := hmax (white_last_checker b) hlt hl5
          omega
        have h2 : m.from_point ≤ white_last_checker b := by
          by_contra hlt
          push_neg at hlt
          have := hlmax m.from_point hlt h5f
          omega
        have heq : white_last_checker b = m.from_point := by omega
        rw [if_pos (by omega)]
        rcases m with ⟨mf, mt, mty⟩
        simp only at hty htt heq
        subst hty; subst htt
        simp [heq]
  case BLACK =>
    obtain ⟨hl0, hl5, hlp, hlmax⟩ := black_last_spec b hgs hw
    simp only [get_possible_moves_for_die, bear_off_moves_spec, hgs, hw]
    rw [List.mem_dedup, List.append_assoc, List.mem_append, List.mem_append]
    constructor
    · rintro (hm | hm | hm)
      · obtain ⟨idx, hs, he, h0, hf, ht, hcol, h0t, ht24, hocc⟩ :=
          mem_normal_moves _ _ _ _ _ _ hm
        rw [hw] at hcol
        simp only [Board.is_point_of_color, decide_eq_true_eq] at hcol
        rcases hocc with ⟨hty, hdest⟩ | ⟨hty, hd1t, hd2t⟩
        · refine Or.inl ⟨hty, by omega, by omega, by omega, ht24, by rw [hf]; exact hcol, ?_⟩
          rcases hdest with hcl | hz
          · rw [hw] at hcl
            simp only [Board.is_point_of_color, decide_eq_true_eq] at hcl
            omega
          · simp only [Board.num_checkers_at_index, abs_eq_zero] at hz
            omega
        · refine Or.inr (Or.inl ⟨hty, by omega, by omega, by omega, ht24,
            by rw [hf]; exact hcol, ?_⟩)
          rw [hw] at hd1t
          simp only [Board.is_point_of_color, decide_eq_true_eq, not_lt] at hd1t
          simp only [Board.num_checkers_at_index] at hd2t
          have := abs_eq (by norm_num : (0 : Int) ≤ 1) |>.mp hd2t
          omega
      · split_ifs at hm with hc
        · simp only [List.mem_singleton] at hm
          subst hm
          simp only [NUM_PLAYABLE_POINTS] at hc
          by_cases hex : b.pointAt (24 - d) < 0
          · have hle : black_last_checker b ≤ 24 - d := by
              by_contra hlt
              push_neg at hlt
              have := hlmax (24 - d) (by omega) hlt
              omega
            have heq : black_last_checker b = 24 - d := by omega
            exact Or.inr (Or.inr (Or.inl ⟨rfl, rfl, by simp [heq], hex⟩))
          · exact Or.inr (Or.inr (Or.inr ⟨rfl, rfl, hex, hl0, hl5, hlp, hlmax,
              show 24 - black_last_checker b ≤ d by omega⟩))
        · simp at hm
      · split_ifs at hm with hc
        · simp only [List.mem_singleton] at hm
          subst hm
          simp only [NUM_PLAYABLE_POINTS] at hc
          exact Or.inr (Or.inr (Or.inl ⟨rfl, rfl, rfl, hc⟩))
        · simp at hm
    · rintro (⟨hty, h0f, h5f, htt, h0t, hpf, hpt⟩ | ⟨hty, h0f, h5f, htt, h0t, hpf, hpt⟩ |
        ⟨hty, htt, hff, hex⟩ | ⟨hty, htt, hnex, h0f, h5f, hpf, hmax, hdle⟩)
      · left
        rcases m with ⟨mf, mt, mty⟩
        simp only at hty h0f h5f htt h0t hpf hpt
        subst hty
        apply mem_normal_moves_intro b 18 24 1 d mf mt MoveType.NORMAL (by omega) (by omega)
          (by rw [hw]; simp only [Board.is_point_of_color, decide_eq_true_eq]; exact hpf)
          (by simp only [Board.num_checkers_at_index]; exact abs_pos.mpr (by omega))
          (by omega) (by omega) h0t
        rcases lt_or_eq_of_le hpt with hlt | heq
        · exact Or.inl ⟨rfl, Or.inl (by
            rw [hw]; simp only [Board.is_point_of_color, decide_eq_true_eq]; exact hlt)⟩
        · exact Or.inl ⟨rfl, Or.inr (by
            simp only [Board.num_checkers_at_index, abs_eq_zero]; omega)⟩
      · left
        rcases m with ⟨mf, mt, mty⟩
        simp only at hty h0f h5f htt h0t hpf hpt
        subst hty
        apply mem_normal_moves_intro b 18 24 1 d mf mt MoveType.NORMAL_PUT_ON_BAR (by omega)
          (by omega)
          (by rw [hw]; simp only [Board.is_point_of_color, decide_eq_true_eq]; exact hpf)
          (by simp only [Board.num_checkers_at_index]; exact abs_pos.mpr (by omega))
          (by omega) (by omega) h0t
        refine Or.inr ⟨rfl, ?_, ?_⟩
        · rw [hw]
          simp only [Board.is_point_of_color, decide_eq_true_eq, not_lt]
          omega
        · simp only [Board.num_checkers_at_index, hpt]
          norm_num
      · right; right
        rw [if_pos (by simp only [NUM_PLAYABLE_POINTS]; exact hex)]
        rcases m with ⟨mf, mt, mty⟩
        simp only at hty htt hff
        subst hty; subst htt; subst hff
        simp [NUM_PLAYABLE_POINTS]
      · right; left
        have h1 : m.from_point ≤ black_last_checker b := by
          by_contra hlt
          push_neg at hlt
          have := hmax (black_last_checker b) hl0 hlt
          omega
        have h2 : black_last_checker b ≤ m.from_point := by
          by_contra hlt
          push_neg at hlt
          have := hlmax m.from_point h0f hlt
          omega
        have heq : black_last_checker b = m.from_point := by omega
        rw [if_pos (by simp only [NUM_PLAYABLE_POINTS]; omega)]
        rcases m with ⟨mf, mt, mty⟩
        simp only at hty htt heq
        subst hty; subst htt
        simp [heq]

theorem sum_map_eq_range (f : Int → Int) : ∀ (l : List Int),
    (l.map f).sum = ((List.range l.length).map (fun i => f (l.getD i 0))).sum := by
  intro l
  induction l with
  | nil => simp
  | cons x xs ih =>
    simp only [List.map_cons, List.sum_cons, List.length_cons, List.range_succ_eq_map,
      List.map_map, List.getD_cons_zero]
    rw [ih]
    congr 1

theorem pointAt_natCast (b : Board) (i : Nat) :
    b.pointAt (i : Int) = b.points.getD i 0 := by
  simp [Board.pointAt]

theorem mover_confined_white_iff (b : Board) (hw : b.turn = Player.WHITE) :
    mover_confined b = true ↔ ∀ i : Nat, i < 24 → 6 ≤ i → b.points.getD i 0 ≤ 0 := by
  simp only [mover_confined, hw, List.all_eq_true]
  constructor
  · intro h i h24 h6
    have := h i (List.mem_range.mpr h24)
    simp only [Board.index_in_home, Bool.or_eq_true, decide_eq_true_eq,
      pointAt_natCast] at this
    rcases this with hh | hh
    · omega
    · exact hh
  · intro h i hi
    rw [List.mem_range] at hi
    simp only [Board.index_in_home, Bool.or_eq_true, decide_eq_true_eq, pointAt_natCast]
    by_cases h6 : 6 ≤ i
    · exact Or.inr (h i hi h6)
    · exact Or.inl ⟨by omega, by omega⟩

theorem mover_confined_black_iff (b : Board) (hw : b.turn = Player.BLACK) :
    mover_confined b = true ↔ ∀ i : Nat, i < 24 → i ≤ 17 → 0 ≤ b.points.getD i 0 := by
  simp only [mover_confined, hw, List.all_eq_true]
  constructor
  · intro h i h24 h17
    have := h i (List.mem_range.mpr h24)
    simp only [Board.index_in_home, Bool.or_eq_true, decide_eq_true_eq,
      pointAt_natCast] at this
    rcases this with hh | hh
    · omega
    · exact hh
  · intro h i hi
    rw [List.mem_range] at hi
    simp only [Board.index_in_home, Bool.or_eq_true, decide_eq_true_eq, pointAt_natCast]
    by_cases h17 : i ≤ 17
    · exact Or.inr (h i hi h17)
    · exact Or.inl ⟨by omega, by omega⟩

theorem opp_free_white_iff (b : Board) (hw : b.turn = Player.WHITE) :
    opp_free_home b = true ↔ ∀ i : Nat, i ≤ 5 → 0 ≤ b.points.getD i 0 := by
  simp only [opp_free_home, hw, List.all_eq_true]
  constructor
  · intro h i h5
    have := h i (List.mem_range.mpr (by omega))
    simp only [Board.index_in_home, Bool.or_eq_true, Bool.not_eq_eq_eq_not, Bool.not_true,
      decide_eq_false_iff_not, decide_eq_true_eq, pointAt_natCast] at this
    rcases this with hh | hh
    · exact absurd ⟨by omega, by omega⟩ hh
    · exact hh
  · intro h i hi
    rw [List.mem_range] at hi
    simp only [Board.index_in_home, Bool.or_eq_true, Bool.not_eq_eq_eq_not, Bool.not_true,
      decide_eq_false_iff_not, decide_eq_true_eq, pointAt_natCast]
    by_cases h5 : i ≤ 5
    · exact Or.inr (h i h5)
    · exact Or.inl (by omega)

theorem opp_free_black_iff (b : Board) (hw : b.turn = Player.BLACK) :
    opp_free_home b = true ↔ ∀ i : Nat, 18 ≤ i → i < 24 → b.points.getD i 0 ≤ 0 := by
  simp only [opp_free_home, hw, List.all_eq_true]
  constructor
  · intro h i h18 h24
    have := h i (List.mem_range.mpr h24)
    simp only [Board.index_in_home, Bool.or_eq_true, Bool.not_eq_eq_eq_not, Bool.not_true,
      decide_eq_false_iff_not, decide_eq_true_eq, pointAt_natCast] at this
    rcases this with hh | hh
    · exact absurd ⟨by omega, by omega⟩ hh
    · exact hh
  · intro h i hi
    rw [List.mem_range] at hi
    simp only [Board.index_in_home, Bool.or_eq_true, Bool.not_eq_eq_eq_not, Bool.not_true,
      decide_eq_false_iff_not, decide_eq_true_eq, pointAt_natCast]
    by_cases h18 : 18 ≤ i
    · exact Or.inr (h i h18 hi)
    · exact Or.inl (by omega)

theorem sum_map_split (l : List Int) (k : Nat) (f : Int → Int) :
    (l.map f).sum = ((l.take k).map f).sum + ((l.drop k).map f).sum := by
  conv_lhs => rw [← List.take_append_drop k l]
  rw [List.map_append, List.sum_append]

theorem getD_take (l : List Int) (k i : Nat) (h : i < k) :
    (l.take k).getD i 0 = l.getD i 0 := by
  induction l generalizing k i with
  | nil => simp
  | cons x xs ih =>
    cases k with
    | zero => omega
    | succ m =>
      cases i with
      | zero => simp
      | succ j => simpa [List.getD_cons_succ] using ih m j (by omega)

theorem getD_drop (l : List Int) (k i : Nat) :
    (l.drop k).getD i 0 = l.getD (k + i) 0 := by
  induction l generalizing k with
  | nil => simp
  | cons x xs ih =>
    cases k with
    | zero => simp
    | succ m =>
      show (xs.drop m).getD i 0 = (x :: xs).getD (m + 1 + i) 0
      rw [ih, show m + 1 + i = (m + i) + 1 from by omega, List.getD_cons_succ]

theorem forall_mem_iff_getD (P : Int → Prop) (l : List Int) :
    (∀ x ∈ l, P x) ↔ ∀ i : Nat, i < l.length → P (l.getD i 0) := by
  induction l with
  | nil => simp
  | cons x xs ih =>
    simp only [List.mem_cons, List.length_cons]
    constructor
    · rintro h i hi
      cases i with
      | zero => simpa using h x (Or.inl rfl)
      | succ n =>
        simpa [List.getD_cons_succ] using
          (ih.mp (fun y hy => h y (Or.inr hy))) n (by omega)
    · intro h y hy
      rcases hy with rfl | hy
      · simpa using h 0 (by omega)
      · exact (ih.mpr (fun i hi => by
          simpa [List.getD_cons_succ] using h (i + 1) (by omega))) y hy

theorem sum_max_nonneg : ∀ l : List Int, 0 ≤ (l.map (fun x => max x 0)).sum := by
  intro l
  induction l with
  | nil => simp
  | cons x xs ih =>
    simp only [List.map_cons, List.sum_cons]
    have : (0:Int) ≤ max x 0 := le_max_right x 0
    omega

theorem sum_max_zero_iff (l : List Int) :
    (l.map (fun x => max x 0)).sum = 0 ↔ ∀ x ∈ l, x ≤ 0 := by
  induction l with
  | nil => simp
  | cons x xs ih =>
    simp only [List.map_cons, List.sum_cons, List.mem_cons]
    have h1 : (0:Int) ≤ max x 0 := le_max_right x 0
    have h2 := sum_max_nonneg xs
    constructor
    · intro h
      have hx : max x 0 = 0 := by omega
      have hs : (xs.map (fun x => max x 0)).sum = 0 := by omega
      rintro y (rfl | hy)
      · omega
      · exact (ih.mp hs) y hy
    · intro h
      have hx : x ≤ 0 := h x (Or.inl rfl)
      have hs : (xs.map (fun x => max x 0)).sum = 0 :=
        ih.mpr (fun y hy => h y (Or.inr hy))
      omega

theorem sum_maxneg_nonneg : ∀ l : List Int, 0 ≤ (l.map (fun x => max (-x) 0)).sum := by
  intro l
  induction l with
  | nil => simp
  | cons x xs ih =>
    simp only [List.map_cons, List.sum_cons]
    have : (0:Int) ≤ max (-x) 0 := le_max_right _ 0
    omega

theorem sum_maxneg_zero_iff (l : List Int) :
    (l.map (fun x => max (-x) 0)).sum = 0 ↔ ∀ x ∈ l, 0 ≤ x := by
  induction l with
  | nil => simp
  | cons x xs ih =>
    simp only [List.map_cons, List.sum_cons, List.mem_cons]
    have h1 : (0:Int) ≤ max (-x) 0 := le_max_right _ 0
    have h2 := sum_maxneg_nonneg xs
    constructor
    · intro h
      have hx : max (-x) 0 = 0 := by omega
      have hs : (xs.map (fun x => max (-x) 0)).sum = 0 := by omega
      rintro y (rfl | hy)
      · omega
      · exact (ih.mp hs) y hy
    · intro h
      have hx : 0 ≤ x := h x (Or.inl rfl)
      have hs : (xs.map (fun x => max (-x) 0)).sum = 0 :=
        ih.mpr (fun y hy => h y (Or.inr hy))
      omega

theorem sum_eq_pos_sub_neg : ∀ l : List Int,
    l.sum = (l.map (fun x => max x 0)).sum - (l.map (fun x => max (-x) 0)).sum := by
  intro l
  induction l with
  | nil => simp
  | cons x xs ih =>
    simp only [List.map_cons, List.sum_cons]
    omega

theorem confined_white_drop (b : Board) (hlen : b.points.length = 24)
    (hw : b.turn = Player.WHITE) :
    (mover_confined b = true ↔ ((b.points.drop 6).map (fun x => max x 0)).sum = 0) := by
  rw [mover_confined_white_iff b hw, sum_max_zero_iff, forall_mem_iff_getD,
    List.length_drop, hlen]
  constructor
  · intro h i hi
    rw [getD_drop]
    exact h (6 + i) (by omega) (by omega)
  · intro h i h24 h6
    have hx := h (i - 6) (by omega)
    rw [getD_drop] at hx
    have he : 6 + (i - 6) = i := by omega
    rwa [he] at hx

theorem confined_black_take (b : Board) (hlen : b.points.length = 24)
    (hw : b.turn = Player.BLACK) :
    (mover_confined b = true ↔
      ((b.points.take 18).map (fun x => max (-x) 0)).sum = 0) := by
  rw [mover_confined_black_iff b hw, sum_maxneg_zero_iff, forall_mem_iff_getD,
    List.length_take, hlen]
  constructor
  · intro h i hi
    rw [getD_take _ _ _ (by omega)]
    exact h i (by omega) (by omega)
  · intro h i h24 h17
    have hx := h i (by omega)
    rwa [getD_take _ _ _ (by omega)] at hx

theorem opp_free_white_take (b : Board) (hlen : b.points.length = 24)
    (hw : b.turn = Player.WHITE) :
    (opp_free_home b = true ↔
      ((b.points.take 6).map (fun x => max (-x) 0)).sum = 0) := by
  rw [opp_free_white_iff b hw, sum_maxneg_zero_iff, forall_mem_iff_getD,
    List.length_take, hlen]
  constructor
  · intro h i hi
    rw [getD_take _ _ _ (by omega)]
    exact h i (by omega)
  · intro h i h5
    have hx := h i (by omega)
    rwa [getD_take _ _ _ (by omega)] at hx

theorem opp_free_black_drop (b : Board) (hlen : b.points.length = 24)
    (hw : b.turn = Player.BLACK) :
    (opp_free_home b = true ↔
      ((b.points.drop 18).map (fun x => max x 0)).sum = 0) := by
  rw [opp_free_black_iff b hw, sum_max_zero_iff, forall_mem_iff_getD,
    List.length_drop, hlen]
  constructor
  · intro h i hi
    rw [getD_drop]
    exact h (18 + i) (by omega) (by omega)
  · intro h i h18 h24
    have hx := h (i - 18) (by omega)
    rw [getD_drop] at hx
    have he : 18 + (i - 18) = i := by omega
    rwa [he] at hx

theorem sum_map_neg : ∀ l : List Int, (l.map (fun x => -x)).sum = -l.sum := by
  intro l
  induction l with
  | nil => simp
  | cons x xs ih =>
    simp only [List.map_cons, List.sum_cons]
    omega

theorem ach_white_arith (b : Board) (hlen : b.points.length = 24) :
    (b.all_checkers_in_home Player.WHITE = true ↔
      ((b.points.take 6).map (fun x => max x 0)).sum + b.offedWhite = 15) := by
  have ht6 : (b.points.take 6).length = 6 := by simp [hlen]
  have hsum : ((b.points.take 6).map (fun x => max x 0)).sum =
      max (b.points.getD 0 0) 0 + (max (b.points.getD 1 0) 0 + (max (b.points.getD 2 0) 0 +
        (max (b.points.getD 3 0) 0 + (max (b.points.getD 4 0) 0 +
          (max (b.points.getD 5 0) 0 + 0))))) := by
    rw [sum_map_eq_range, ht6, show List.range 6 = [0,1,2,3,4,5] from rfl]
    simp only [List.map_cons, List.map_nil, List.sum_cons, List.sum_nil]
    rw [getD_take _ _ _ (by omega : (0:Nat) < 6), getD_take _ _ _ (by omega : (1:Nat) < 6),
        getD_take _ _ _ (by omega : (2:Nat) < 6), getD_take _ _ _ (by omega : (3:Nat) < 6),
        getD_take _ _ _ (by omega : (4:Nat) < 6), getD_take _ _ _ (by omega : (5:Nat) < 6)]
  simp only [Board.all_checkers_in_home, Player.get_home_board_range, List.map_cons,
    List.map_nil, List.sum_cons, List.sum_nil, Board.pointAt, Board.offedOf,
    INIT_CHECKER_COUNT, decide_eq_true_eq, Int.toNat_ofNat, Int.toNat_zero, Int.toNat_one]
  simp only [show ((0:Int)).toNat = 0 from rfl, show ((1:Int)).toNat = 1 from rfl,
    show ((2:Int)).toNat = 2 from rfl, show ((3:Int)).toNat = 3 from rfl,
    show ((4:Int)).toNat = 4 from rfl, show ((5:Int)).toNat = 5 from rfl]
  rw [hsum]

theorem ach_black_arith (b : Board) (hlen : b.points.length = 24) :
    (b.all_checkers_in_home Player.BLACK = true ↔
      ((b.points.drop 18).map (fun x => max (-x) 0)).sum + b.offedBlack = 15) := by
  have hd6 : (b.points.drop 18).length = 6 := by simp [hlen]
  have hsum : ((b.points.drop 18).map (fun x => max (-x) 0)).sum =
      max (-(b.points.getD 18 0)) 0 + (max (-(b.points.getD 19 0)) 0 +
        (max (-(b.points.getD 20 0)) 0 + (max (-(b.points.getD 21 0)) 0 +
          (max (-(b.points.getD 22 0)) 0 + (max (-(b.points.getD 23 0)) 0 + 0))))) := by
    rw [sum_map_eq_range, hd6, show List.range 6 = [0,1,2,3,4,5] from rfl]
    simp only [List.map_cons, List.map_nil, List.sum_cons, List.sum_nil]
    rw [getD_drop, getD_drop, getD_drop, getD_drop, getD_drop, getD_drop]
  simp only [Board.all_checkers_in_home, Player.get_home_board_range, List.map_cons,
    List.map_nil, List.sum_cons, List.sum_nil, Board.pointAt, Board.offedOf,
    INIT_CHECKER_COUNT, decide_eq_true_eq, Int.toNat_ofNat, Int.toNat_zero, Int.toNat_one]
  simp only [show ((18:Int)).toNat = 18 from rfl, show ((19:Int)).toNat = 19 from rfl,
    show ((20:Int)).toNat = 20 from rfl, show ((21:Int)).toNat = 21 from rfl,
    show ((22:Int)).toNat = 22 from rfl, show ((23:Int)).toNat = 23 from rfl]
  rw [hsum]
  omega

theorem apih_white_arith (b : Board) (hlen : b.points.length = 24)
    (hw : b.turn = Player.WHITE) :
    (b.all_pieces_in_house_for_turn = true ↔
      (b.points.take 6).sum + b.offedWhite = 15) := by
  have ht6 : (b.points.take 6).length = 6 := by simp [hlen]
  have hsum : (b.points.take 6).sum =
      b.points.getD 0 0 + (b.points.getD 1 0 + (b.points.getD 2 0 +
        (b.points.getD 3 0 + (b.points.getD 4 0 + (b.points.getD 5 0 + 0))))) := by
    rw [← List.map_id (b.points.take 6), sum_map_eq_range]
    simp only [List.length_map, ht6]
    rw [show List.range 6 = [0,1,2,3,4,5] from rfl]
    simp only [List.map_cons, List.map_nil, List.sum_cons, List.sum_nil, List.getD_map, id]
    rw [getD_take _ _ _ (by omega : (0:Nat) < 6), getD_take _ _ _ (by omega : (1:Nat) < 6),
        getD_take _ _ _ (by omega : (2:Nat) < 6), getD_take _ _ _ (by omega : (3:Nat) < 6),
        getD_take _ _ _ (by omega : (4:Nat) < 6), getD_take _ _ _ (by omega : (5:Nat) < 6)]
  simp only [Board.all_pieces_in_house_for_turn, hw, Player.get_home_board_range,
    List.map_cons, List.map_nil, List.sum_cons, List.sum_nil, Board.pointAt, Board.offedOf,
    INIT_CHECKER_COUNT, decide_eq_true_eq, Int.toNat_ofNat, Int.toNat_zero, Int.toNat_one]
  simp only [show ((0:Int)).toNat = 0 from rfl, show ((1:Int)).toNat = 1 from rfl,
    show ((2:Int)).toNat = 2 from rfl, show ((3:Int)).toNat = 3 from rfl,
    show ((4:Int)).toNat = 4 from rfl, show ((5:Int)).toNat = 5 from rfl]
  rw [hsum]

theorem apih_black_arith (b : Board) (hlen : b.points.length = 24)
    (hw : b.turn = Player.BLACK) :
    (b.all_pieces_in_house_for_turn = true ↔
      -(b.points.drop 18).sum + b.offedBlack = 15) := by
  have hd6 : (b.points.drop 18).length = 6 := by simp [hlen]
  have hsum : (b.points.drop 18).sum =
      b.points.getD 18 0 + (b.points.getD 19 0 + (b.points.getD 20 0 +
        (b.points.getD 21 0 + (b.points.getD 22 0 + (b.points.getD 23 0 + 0))))) := by
    rw [← List.map_id (b.points.drop 18), sum_map_eq_range]
    simp only [List.length_map, hd6]
    rw [show List.range 6 = [0,1,2,3,4,5] from rfl]
    simp only [List.map_cons, List.map_nil, List.sum_cons, List.sum_nil, List.getD_map, id]
    rw [getD_drop, getD_drop, getD_drop, getD_drop, getD_drop, getD_drop]
  simp only [Board.all_pieces_in_house_for_turn, hw, Player.get_home_board_range,
    List.map_cons, List.map_nil, List.sum_cons, List.sum_nil, Board.pointAt, Board.offedOf,
    INIT_CHECKER_COUNT, decide_eq_true_eq, Int.toNat_ofNat, Int.toNat_zero, Int.toNat_one]
  simp only [show ((18:Int)).toNat = 18 from rfl, show ((19:Int)).toNat = 19 from rfl,
    show ((20:Int)).toNat = 20 from rfl, show ((21:Int)).toNat = 21 from rfl,
    show ((22:Int)).toNat = 22 from rfl, show ((23:Int)).toNat = 23 from rfl]
  rw [hsum]
  omega

theorem gstate_bear_off_iff (b : Board) (hv : ValidBoard b) :
    (game_state_for_turn b = GameState.BEAR_OFF ↔
      b.is_game_over = false ∧ b.barredOf b.turn = 0 ∧ mover_confined b = true) := by
  obtain ⟨hlen, hbw, hbb, how, hob, hwt, hbt⟩ := hv
  unfold game_state_for_turn
  cases ht : b.turn with
  | WHITE =>
    have hsplit := sum_map_split b.points 6 (fun x => max x 0)
    have hdge := sum_max_nonneg (b.points.drop 6)
    have hach := ach_white_arith b hlen
    have hcf := confined_white_drop b hlen ht
    have hwt15 : ((b.points.take 6).map (fun x => max x 0)).sum +
        ((b.points.drop 6).map (fun x => max x 0)).sum +
        b.barredWhite + b.offedWhite = 15 := by
      simp only [whiteTotal, INIT_CHECKER_COUNT] at hwt
      omega
    simp only [Board.barredOf]
    split_ifs with h1 h2 h3
    · simp [h1]
    · constructor
      · intro hc; simp at hc
      · rintro ⟨hg, hb0, -⟩
        rcases h2 with ⟨-, hbpos⟩ | ⟨hcB, -⟩
        · omega
        · exact hcB.elim
    · have hg : b.is_game_over = false := by
        revert h1; cases b.is_game_over <;> simp
      have hb0 : b.barredWhite = 0 := by
        rcases not_or.mp h2 with ⟨hna, -⟩
        rw [not_and] at hna
        have := hna trivial
        omega
      have hdz : ((b.points.drop 6).map (fun x => max x 0)).sum = 0 := by
        have := hach.mp h3
        omega
      constructor
      · rintro -
        exact ⟨hg, hb0, hcf.mpr hdz⟩
      · rintro -
        rfl
    · constructor
      · intro hc; simp at hc
      · rintro ⟨-, hb0, hconf⟩
        have hdz := hcf.mp hconf
        exact absurd (hach.mpr (by omega)) h3
  | BLACK =>
    have hsplit := sum_map_split b.points 18 (fun x => max (-x) 0)
    have htge := sum_maxneg_nonneg (b.points.take 18)
    have hach := ach_black_arith b hlen
    have hcf := confined_black_take b hlen ht
    have hbt15 : ((b.points.take 18).map (fun x => max (-x) 0)).sum +
        ((b.points.drop 18).map (fun x => max (-x) 0)).sum +
        b.barredBlack + b.offedBlack = 15 := by
      simp only [blackTotal, INIT_CHECKER_COUNT] at hbt
      omega
    simp only [Board.barredOf]
    split_ifs with h1 h2 h3
    · simp [h1]
    · constructor
      · intro hc; simp at hc
      · rintro ⟨hg, hb0, -⟩
        rcases h2 with ⟨hcW, -⟩ | ⟨-, hbpos⟩
        · exact hcW.elim
        · omega
    · have hg : b.is_game_over = false := by
        revert h1; cases b.is_game_over <;> simp
      have hb0 : b.barredBlack = 0 := by
        rcases not_or.mp h2 with ⟨-, hnb⟩
        rw [not_and] at hnb
        have := hnb trivial
        omega
      have htz : ((b.points.take 18).map (fun x => max (-x) 0)).sum = 0 := by
        have := hach.mp h3
        omega
      constructor
      · rintro -
        exact ⟨hg, hb0, hcf.mpr htz⟩
      · rintro -
        rfl
    · constructor
      · intro hc; simp at hc
      · rintro ⟨-, hb0, hconf⟩
        have htz := hcf.mp hconf
        exact absurd (hach.mpr (by omega)) h3

theorem bstate_bear_off_iff (b : Board) (hv : ValidBoard b) :
    (Board.game_state_for_current_turn b = GameState.BEAR_OFF ↔
      b.is_game_over = false ∧ b.barredOf b.turn = 0 ∧ mover_confined b = true ∧
        opp_free_home b = true) := by
  obtain ⟨hlen, hbw, hbb, how, hob, hwt, hbt⟩ := hv
  unfold Board.game_state_for_current_turn
  cases ht : b.turn with
  | WHITE =>
    have hsplit := sum_map_split b.points 6 (fun x => max x 0)
    have hdge := sum_max_nonneg (b.points.drop 6)
    have htne := sum_maxneg_nonneg (b.points.take 6)
    have hpe := sum_eq_pos_sub_neg (b.points.take 6)
    have hapih := apih_white_arith b hlen ht
    have hcf := confined_white_drop b hlen ht
    have hof := opp_free_white_take b hlen ht
    have hwt15 : ((b.points.take 6).map (fun x => max x 0)).sum +
        ((b.points.drop 6).map (fun x => max x 0)).sum +
        b.barredWhite + b.offedWhite = 15 := by
      simp only [whiteTotal, INIT_CHECKER_COUNT] at hwt
      omega
    simp only [Board.barredOf]
    split_ifs with h1 h2 h3
    · simp [h1]
    · constructor
      · intro hc; simp at hc
      · rintro ⟨hg, hb0, -⟩
        rcases h2 with ⟨-, hbpos⟩ | ⟨hcB, -⟩
        · omega
        · exact hcB.elim
    · have hg : b.is_game_over = false := by
        revert h1; cases b.is_game_over <;> simp
      have hb0 : b.barredWhite = 0 := by
        rcases not_or.mp h2 with ⟨hna, -⟩
        rw [not_and] at hna
        have := hna trivial
        omega
      have happ := hapih.mp h3
      have hdz : ((b.points.drop 6).map (fun x => max x 0)).sum = 0 := by omega
      have htz : ((b.points.take 6).map (fun x => max (-x) 0)).sum = 0 := by omega
      constructor
      · rintro -
        exact ⟨hg, hb0, hcf.mpr hdz, hof.mpr htz⟩
      · rintro -
        rfl
    · constructor
      · intro hc; simp at hc
      · rintro ⟨-, hb0, hconf, hfree⟩
        have hdz := hcf.mp hconf
        have htz := hof.mp hfree
        exact absurd (hapih.mpr (by omega)) h3
  | BLACK =>
    have hsplit := sum_map_split b.points 18 (fun x => max (-x) 0)
    have htge := sum_maxneg_nonneg (b.points.take 18)
    have hdge := sum_max_nonneg (b.points.drop 18)
    have hpe := sum_eq_pos_sub_neg (b.points.drop 18)
    have hapih := apih_black_arith b hlen ht
    have hcf := confined_black_take b hlen ht
    have hof := opp_free_black_drop b hlen ht
    have hbt15 : ((b.points.take 18).map (fun x => max (-x) 0)).sum +
        ((b.points.drop 18).map (fun x => max (-x) 0)).sum +
        b.barredBlack + b.offedBlack = 15 := by
      simp only [blackTotal, INIT_CHECKER_COUNT] at hbt
      omega
    simp only [Board.barredOf]
    split_ifs with h1 h2 h3
    · simp [h1]
    · constructor
      · intro hc; simp at hc
      · rintro ⟨hg, hb0, -⟩
        rcases h2 with ⟨hcW, -⟩ | ⟨-, hbpos⟩
        · exact hcW.elim
        · omega
    · have hg : b.is_game_over = false := by
        revert h1; cases b.is_game_over <;> simp
      have hb0 : b.barredBlack = 0 := by
        rcases not_or.mp h2 with ⟨-, hnb⟩
        rw [not_and] at hnb
        have := hnb trivial
        omega
      have happ := hapih.mp h3
      have htz : ((b.points.take 18).map (fun x => max (-x) 0)).sum = 0 := by omega
      have hdz : ((b.points.drop 18).map (fun x => max x 0)).sum = 0 := by omega
      constructor
      · rintro -
        exact ⟨hg, hb0, hcf.mpr htz, hof.mpr hdz⟩
      · rintro -
        rfl
    · constructor
      · intro hc; simp at hc
      · rintro ⟨-, hb0, hconf, hfree⟩
        have htz := hcf.mp hconf
        have hdz := hof.mp hfree
        exact absurd (hapih.mpr (by omega)) h3

theorem gstate_over (b : Board) (h : b.is_game_over = true) :
    game_state_for_turn b = GameState.OVER := by
  unfold game_state_for_turn
  rw [if_pos h]

theorem bstate_over (b : Board) (h : b.is_game_over = true) :
    Board.game_state_for_current_turn b = GameState.OVER := by
  unfold Board.game_state_for_current_turn
  rw [if_pos h]

theorem gstate_barred (b : Board) (h : b.is_game_over = false)
    (hb : 0 < b.barredOf b.turn) :
    game_state_for_turn b = GameState.BARRED_PIECES := by
  unfold game_state_for_turn
  cases htn : b.turn
  · rw [htn] at hb
    simp only [Board.barredOf] at hb
    rw [if_neg (by simp [h]), if_pos (Or.inl ⟨rfl, hb⟩)]
  · rw [htn] at hb
    simp only [Board.barredOf] at hb
    rw [if_neg (by simp [h]), if_pos (Or.inr ⟨rfl, hb⟩)]

theorem bstate_barred (b : Board) (h : b.is_game_over = false)
    (hb : 0 < b.barredOf b.turn) :
    Board.game_state_for_current_turn b = GameState.BARRED_PIECES := by
  unfold Board.game_state_for_current_turn
  cases htn : b.turn
  · rw [htn] at hb
    simp only [Board.barredOf] at hb
    rw [if_neg (by simp [h]), if_pos (Or.inl ⟨rfl, hb⟩)]
  · rw [htn] at hb
    simp only [Board.barredOf] at hb
    rw [if_neg (by simp [h]), if_pos (Or.inr ⟨rfl, hb⟩)]

/-- C7: the claim as frozen fails for `Board.game_state_for_current_turn`
(board.py): on `boardC7` the game is not over, white has no barred
checkers, and white's entire army is confined to its home plus the offed
pile, yet the board classifier answers NORMAL (the signed home sum is
depressed by the black anchor on point index 3), not BEAR_OFF. -/
theorem c7_counterexample :
    ValidBoard boardC7 ∧
    boardC7.is_game_over = false ∧
    boardC7.barredOf boardC7.turn = 0 ∧
    mover_confined boardC7 = true ∧
    Board.game_state_for_current_turn boardC7 = GameState.NORMAL := by
  refine ⟨by decide, by decide, by decide, by decide, by decide⟩

/-- C7 (amended): on every valid board both classifiers answer OVER when a
side has offed 15, else BARRED_PIECES when the mover has a barred checker;
the game-level classifier (`game_state_for_turn`, via
`all_checkers_in_home`) answers BEAR_OFF exactly when the game is not
over, the mover's bar is empty and the mover's army is confined to its
home range and offed pile, while the board-level classifier
(`Board.game_state_for_current_turn`, via the signed
`__all_pieces_in_house_for_turn`) additionally demands that no opposing
checker sits inside the mover's home range. -/
theorem c7_amended (b : Board) (hv : ValidBoard b) :
    ((b.is_game_over = true → game_state_for_turn b = GameState.OVER ∧
        Board.game_state_for_current_turn b = GameState.OVER) ∧
     (b.is_game_over = false → 0 < b.barredOf b.turn →
        game_state_for_turn b = GameState.BARRED_PIECES ∧
        Board.game_state_for_current_turn b = GameState.BARRED_PIECES)) ∧
    (game_state_for_turn b = GameState.BEAR_OFF ↔
      b.is_game_over = false ∧ b.barredOf b.turn = 0 ∧ mover_confined b = true) ∧
    (Board.game_state_for_current_turn b = GameState.BEAR_OFF ↔
      b.is_game_over = false ∧ b.barredOf b.turn = 0 ∧ mover_confined b = true ∧
        opp_free_home b = true) :=
  ⟨⟨fun h => ⟨gstate_over b h, bstate_over b h⟩,
    fun h hb => ⟨gstate_barred b h hb, bstate_barred b h hb⟩⟩,
   gstate_bear_off_iff b hv, bstate_bear_off_iff b hv⟩

/-- Witness for the amended C7: the starting board is valid, and
instantiating the amended characterization there confirms the BEAR_OFF
test is negative on it. -/
theorem c7_amended_witness :
    ValidBoard startBoard ∧
    (game_state_for_turn startBoard = GameState.BEAR_OFF ↔
      startBoard.is_game_over = false ∧ startBoard.barredOf startBoard.turn = 0 ∧
        mover_confined startBoard = true) :=
  ⟨by decide, (c7_amended startBoard (by decide)).2.1⟩

theorem totalCheckers_eq (b : Board) :
    totalCheckers b = whiteTotal b + blackTotal b := by
  unfold totalCheckers whiteTotal blackTotal
  have h := sum_map_add_map (fun x => max x 0) (fun x => max (-x) 0) b.points
  have habs : (b.points.map (fun x => |x|)).sum
      = (b.points.map (fun x => max x 0 + max (-x) 0)).sum := by
    congr 1
    apply List.map_congr_left
    intro x hx
    rcases le_total 0 x with hx0 | hx0
    · rw [abs_of_nonneg hx0]; omega
    · rw [abs_of_nonpos hx0]; omega
  rw [habs, ← h]
  ring

theorem valid_flip (b : Board) (hv : ValidBoard b) :
    ValidBoard { b with turn := b.turn.opponent } := by
  obtain ⟨hlen, hbw, hbb, how, hob, hwt, hbt⟩ := hv
  exact ⟨hlen, hbw, hbb, how, hob, hwt, hbt⟩

theorem reachable_valid (b : Board) (hr : Reachable b) : ValidBoard b := by
  induction hr with
  | start => decide
  | play b r1 r2 ms hb h11 h16 h21 h26 hm ih =>
    obtain ⟨ds, hds, hch⟩ := mem_possible_move_rolls b r1 r2 ih h11 h16 h21 h26 ms hm
    exact chain_valid hch hds ih
  | flip b hb ih => exact valid_flip b ih

/-- C3: every board reachable from the start position through
generator-produced move rolls (with turn flips in between) carries 30
checkers in total (Σ|points| plus both barred and offed counters) and 15
per color, and a single apply of any generator-produced move preserves all
three sums. -/
theorem c3_invariant (b : Board) (hr : Reachable b) :
    totalCheckers b = 30 ∧ whiteTotal b = 15 ∧ blackTotal b = 15 ∧
    (∀ d m, 1 ≤ d → d ≤ 6 → m ∈ get_possible_moves_for_die b d →
      totalCheckers (apply_move b m) = totalCheckers b ∧
      whiteTotal (apply_move b m) = whiteTotal b ∧
      blackTotal (apply_move b m) = blackTotal b) := by
  have hv := reachable_valid b hr
  obtain ⟨hlen, h1, h2, h3, h4, hwt, hbt⟩ := hv
  refine ⟨?_, hwt, hbt, ?_⟩
  · rw [totalCheckers_eq, hwt, hbt]; decide
  · intro d m hd1 hd6 hm
    have hleg := mem_moves_legal b d hd1 hd6 m hm
    have htot := legal_apply_totals b m hleg hlen
    refine ⟨?_, htot.1, htot.2⟩
    rw [totalCheckers_eq, totalCheckers_eq, htot.1, htot.2]

/-- Witness for C3: the invariant instantiated at the start position
itself. -/
theorem c3_invariant_witness :
    totalCheckers startBoard = 30 ∧ whiteTotal startBoard = 15 ∧
      blackTotal startBoard = 15 :=
  ⟨(c3_invariant startBoard Reachable.start).1,
   (c3_invariant startBoard Reachable.start).2.1,
   (c3_invariant startBoard Reachable.start).2.2.1⟩

/-- C1: applying a generator-produced move roll with `apply_move_roll` and
undoing it with `undo_move_roll` (reverse, LIFO order) restores the
original valid board in every field. -/
theorem c1_roundtrip (b : Board) (hv : ValidBoard b) (d1 d2 : Int)
    (h11 : 1 ≤ d1) (h16 : d1 ≤ 6) (h21 : 1 ≤ d2) (h26 : d2 ≤ 6) (ms : List Move)
    (hm : ms ∈ (get_possible_move_rolls b (d1, d2)).2) :
    undo_move_roll (apply_move_roll b ms) ms = b := by
  obtain ⟨ds, hds, hch⟩ := mem_possible_move_rolls b d1 d2 hv h11 h16 h21 h26 ms hm
  exact chain_undo hch hds hv

/-- Witness for C1: a double bear-off roll on `boardC9` round-trips. -/
theorem c1_roundtrip_witness :
    ValidBoard boardC9 ∧
    [Move.mk 2 (-1) MoveType.BEAR_OFF, Move.mk 2 (-1) MoveType.BEAR_OFF] ∈
      (get_possible_move_rolls boardC9 (5, 3)).2 ∧
    undo_move_roll
      (apply_move_roll boardC9
        [Move.mk 2 (-1) MoveType.BEAR_OFF, Move.mk 2 (-1) MoveType.BEAR_OFF])
      [Move.mk 2 (-1) MoveType.BEAR_OFF, Move.mk 2 (-1) MoveType.BEAR_OFF] = boardC9 :=
  ⟨by decide, by decide,
   c1_roundtrip boardC9 (by decide) 5 3 (by decide) (by decide) (by decide) (by decide)
     [Move.mk 2 (-1) MoveType.BEAR_OFF, Move.mk 2 (-1) MoveType.BEAR_OFF] (by decide)⟩

/-- C2: the top-level generator returns the board component unchanged —
every apply performed on a search branch is matched by an undo before the
branch returns, so the threaded board equals the input board. -/
theorem c2_frame (b : Board) (hv : ValidBoard b) (d1 d2 : Int)
    (h11 : 1 ≤ d1) (h16 : d1 ≤ 6) (h21 : 1 ≤ d2) (h26 : d2 ≤ 6) :
    (get_possible_move_rolls b (d1, d2)).1 = b := by
  rw [possible_move_rolls_eq_spec b d1 d2 hv h11 h16 h21 h26]

/-- Witness for C2: the start position with roll (2,1). -/
theorem c2_frame_witness : (get_possible_move_rolls startBoard (2, 1)).1 = startBoard :=
  c2_frame startBoard (by decide) 2 1 (by decide) (by decide) (by decide) (by decide)

/-- C4: the top-level generator equals the pure die-sequencing policy:
doubles retry 4, 3, 2, 1 copies until a count yields a sequence;
non-doubles union both orders with the larger die first, then fall back to
single-die play for the larger and only then the smaller die; nothing
playable yields the empty collection with the board untouched. -/
theorem c4_policy (b : Board) (hv : ValidBoard b) (d1 d2 : Int)
    (h11 : 1 ≤ d1) (h16 : d1 ≤ 6) (h21 : 1 ≤ d2) (h26 : d2 ≤ 6) :
    get_possible_move_rolls b (d1, d2) = (b, move_rolls_spec b d1 d2) :=
  possible_move_rolls_eq_spec b d1 d2 hv h11 h16 h21 h26

/-- Witness for C4: the start position with a double roll (6,6). -/
theorem c4_policy_witness :
    get_possible_move_rolls startBoard (6, 6) = (startBoard, move_rolls_spec startBoard 6 6) :=
  c4_policy startBoard (by decide) 6 6 (by decide) (by decide) (by decide) (by decide)

/-- C5: while the mover has a barred checker, every single-die candidate
is a bar entry: its kind is BAR_ENTRY or BAR_ENTRY_PUT_ON_BAR (never
NORMAL, NORMAL_PUT_ON_BAR or BEAR_OFF), it enters at the point determined
by the die and the mover's entry direction, the entry point holds at most
one opposing checker, and the PUT_ON_BAR kind appears exactly when it
holds exactly one. -/
theorem c5_barred (b : Board) (d : Int) (m : Move)
    (hm : m ∈ get_possible_moves_for_die b d) (hbar : 0 < b.barredOf b.turn) :
    (m.move_type = MoveType.BAR_ENTRY ∨ m.move_type = MoveType.BAR_ENTRY_PUT_ON_BAR) ∧
    m.to_point = entry_point b.turn d ∧
    opp_count_at b m.to_point ≤ 1 ∧
    (m.move_type = MoveType.BAR_ENTRY_PUT_ON_BAR ↔ opp_count_at b m.to_point = 1) :=
  mem_moves_barred b d m hm hbar

/-- Witness for C5: white enters from the bar at point 21 with die 3 on
the all-barred board. -/
theorem c5_barred_witness :
    (Move.mk (-1) 21 MoveType.BAR_ENTRY ∈ get_possible_moves_for_die boardC8 3) ∧
    0 < boardC8.barredOf boardC8.turn ∧
    ((Move.mk (-1) 21 MoveType.BAR_ENTRY).move_type = MoveType.BAR_ENTRY ∨
      (Move.mk (-1) 21 MoveType.BAR_ENTRY).move_type = MoveType.BAR_ENTRY_PUT_ON_BAR) ∧
    (Move.mk (-1) 21 MoveType.BAR_ENTRY).to_point = entry_point boardC8.turn 3 :=
  ⟨by decide, by decide,
   (c5_barred boardC8 3 (Move.mk (-1) 21 MoveType.BAR_ENTRY) (by decide) (by decide)).1,
   (c5_barred boardC8 3 (Move.mk (-1) 21 MoveType.BAR_ENTRY) (by decide) (by decide)).2.1⟩

/-- C6: in the BEAR_OFF regime the single-die candidates are exactly the
within-home NORMAL/HIT moves, the exact-pip bear-off, and the overage
bear-off of the most advanced checker when no checker sits at the exact
pip and none lies beyond the die's reach. -/
theorem c6_bear_off (b : Board) (d : Int) (hd1 : 1 ≤ d) (hd6 : d ≤ 6)
    (hgs : game_state_for_turn b = GameState.BEAR_OFF) (m : Move) :
    m ∈ get_possible_moves_for_die b d ↔ bear_off_moves_spec b d m :=
  bear_off_iff b d hd1 hd6 hgs m

/-- Witness for C6: the overage bear-off from point index 2 with die 5 on
`boardC9`. -/
theorem c6_bear_off_witness :
    game_state_for_turn boardC9 = GameState.BEAR_OFF ∧
    (Move.mk 2 (-1) MoveType.BEAR_OFF ∈ get_possible_moves_for_die boardC9 5 ↔
      bear_off_moves_spec boardC9 5 (Move.mk 2 (-1) MoveType.BEAR_OFF)) :=
  ⟨by decide,
   c6_bear_off boardC9 5 (by decide) (by decide) (by decide) (Move.mk 2 (-1) MoveType.BEAR_OFF)⟩

theorem moves_nodup (b : Board) (d : Int) : (get_possible_moves_for_die b d).Nodup := by
  unfold get_possible_moves_for_die
  split
  · exact List.nodup_dedup _
  · split
    · simp only []
      split_ifs <;> simp
    · simp only []
      split_ifs <;> simp
  · split
    · exact List.nodup_dedup _
    · exact List.nodup_dedup _
  · simp

/-- C9: the claim fails at the sequence level — `MoveRoll` carries no
equality, so the recorded sequences collapse only by object identity: on
`boardC9` with roll (5,3) the returned collection holds the sequence
[bear off 2, bear off 2] twice, element-wise identical entries that do not
collapse. -/
theorem c9_counterexample :
    ValidBoard boardC9 ∧ ¬ ((get_possible_move_rolls boardC9 (5, 3)).2).Nodup := by
  refine ⟨by decide, by decide⟩

/-- C9 (amended): deduplication exists only at the single-die candidate
level — each `get_possible_moves_for_die` answer is duplicate-free —
while recorded sequences are kept with multiplicity. -/
theorem c9_amended (b : Board) (d : Int) :
    (get_possible_moves_for_die b d).Nodup :=
  moves_nodup b d

/-- C10: the board-level clone copies every field, but the game-level
clone passes offed.white for the offed.black argument: on `boardC10`
(offed.black = 1) the cloned board's offed.black equals the source's
offed.white and the clone differs from the original. -/
theorem c10_clone_bug :
    (∀ b : Board, Board.clone b = b) ∧
    (gameClone boardC10).offedBlack = boardC10.offedWhite ∧
    gameClone boardC10 ≠ boardC10 :=
  ⟨fun b => rfl, by decide, by decide⟩

theorem charToDigit_digitChar (d : Nat) (h : d < 10) :
    charToDigit (digitChar d) = some d := by
  interval_cases d <;> decide

theorem digitChar_ne_dash (d : Nat) (h : d < 10) : digitChar d ≠ '-' := by
  interval_cases d <;> decide

theorem digitChar_ne_space (d : Nat) (h : d < 10) : digitChar d ≠ ' ' := by
  interval_cases d <;> decide

theorem digitChar_ne_slash (d : Nat) (h : d < 10) : digitChar d ≠ '/' := by
  interval_cases d <;> decide

theorem mem_natToCharsFuel : ∀ f n c, n ≤ f → c ∈ natToCharsFuel f n →
    ∃ d, d < 10 ∧ c = digitChar d := by
  intro f
  induction f with
  | zero =>
    intro n c hf hc
    have hn : n = 0 := by omega
    subst hn
    simp only [natToCharsFuel, List.mem_singleton] at hc
    exact ⟨0, by omega, hc⟩
  | succ f ih =>
    intro n c hf hc
    simp only [natToCharsFuel] at hc
    split at hc
    · simp only [List.mem_singleton] at hc
      exact ⟨n, by omega, hc⟩
    · rw [List.mem_append] at hc
      rcases hc with hc | hc
      · exact ih (n / 10) c (by omega) hc
      · simp only [List.mem_singleton] at hc
        exact ⟨n % 10, by omega, hc⟩

theorem mem_natToChars (n : Nat) (c : Char) (hc : c ∈ natToChars n) :
    ∃ d, d < 10 ∧ c = digitChar d :=
  mem_natToCharsFuel n n c le_rfl hc

theorem natToCharsFuel_ne_nil (f n : Nat) : natToCharsFuel f n ≠ [] := by
  cases f with
  | zero => simp [natToCharsFuel]
  | succ f =>
    simp only [natToCharsFuel]
    split <;> simp

theorem natToChars_ne_nil (n : Nat) : natToChars n ≠ [] :=
  natToCharsFuel_ne_nil n n

theorem foldl_pstep_natToCharsFuel : ∀ f n a, n ≤ f →
    (natToCharsFuel f n).foldl pstep (some a) =
      some (a * 10 ^ (natToCharsFuel f n).length + n) := by
  intro f
  induction f with
  | zero =>
    intro n a hf
    have hn : n = 0 := by omega
    subst hn
    simp [natToCharsFuel, pstep, charToDigit_digitChar 0 (by omega)]
  | succ f ih =>
    intro n a hf
    simp only [natToCharsFuel]
    split
    · simp only [List.foldl_cons, List.foldl_nil, pstep,
        charToDigit_digitChar n (by omega), List.length_singleton]
      norm_num
    · rw [List.foldl_append, ih (n / 10) a (by omega)]
      simp only [List.foldl_cons, List.foldl_nil, pstep,
        charToDigit_digitChar (n % 10) (by omega), List.length_append,
        List.length_singleton]
      have hp : 10 ^ ((natToCharsFuel f (n / 10)).length + 1)
          = 10 ^ (natToCharsFuel f (n / 10)).length * 10 := pow_succ 10 _
      rw [hp]
      have hn : n / 10 * 10 + n % 10 = n := by omega
      congr 1
      ring_nf
      omega

theorem parseNat_natToChars (n : Nat) : parseNat (natToChars n) = some n := by
  unfold parseNat
  rw [if_neg (by simpa using natToChars_ne_nil n)]
  unfold natToChars
  rw [foldl_pstep_natToCharsFuel n n 0 le_rfl]
  simp

theorem parseInt_natToChars (n : Nat) : parseInt (natToChars n) = some (n : Int) := by
  cases hl : natToChars n with
  | nil => exact absurd hl (natToChars_ne_nil n)
  | cons c t =>
    have hcmem : c ∈ natToChars n := by rw [hl]; simp
    obtain ⟨d, hd, hcd⟩ := mem_natToChars n c hcmem
    unfold parseInt
    split
    · rename_i rest heq
      have hc2 : c = '-' := (List.cons.injEq _ _ _ _).mp heq |>.1
      exact absurd (hcd.symm.trans hc2) (digitChar_ne_dash d hd)
    · rw [← hl, parseNat_natToChars]
      rfl

theorem parseInt_intToChars (i : Int) : parseInt (intToChars i) = some i := by
  unfold intToChars
  split_ifs with h
  · have : parseInt ('-' :: natToChars (-i).toNat)
        = (parseNat (natToChars (-i).toNat)).map (fun n => -(n : Int)) := rfl
    rw [this, parseNat_natToChars]
    show some (-(((-i).toNat : Nat) : Int)) = some i
    congr 1
    omega
  · rw [parseInt_natToChars]
    congr 1
    omega

theorem split_ne_nil (c : Char) : ∀ l, splitOnChar c l ≠ [] := by
  intro l
  induction l with
  | nil => simp [splitOnChar]
  | cons x xs ih =>
    simp only [splitOnChar]
    split_ifs
    · simp
    · split <;> simp

theorem split_no_sep (c : Char) : ∀ l, c ∉ l → splitOnChar c l = [l] := by
  intro l
  induction l with
  | nil => intro _; rfl
  | cons x xs ih =>
    intro h
    simp only [List.mem_cons, not_or] at h
    simp only [splitOnChar]
    rw [if_neg (fun he => h.1 he.symm), ih h.2]

theorem split_append (c : Char) : ∀ xs ys, c ∉ xs →
    splitOnChar c (xs ++ c :: ys) = xs :: splitOnChar c ys := by
  intro xs
  induction xs with
  | nil =>
    intro ys h
    simp [splitOnChar]
  | cons x xs ih =>
    intro ys h
    simp only [List.mem_cons, not_or] at h
    simp only [List.cons_append, splitOnChar]
    rw [if_neg (fun he => h.1 he.symm)]
    simp only [List.append_eq]
    rw [ih ys h.2]

theorem intercalate_two (s a b : List Char) (rest : List (List Char)) :
    List.intercalate s (a :: b :: rest) = a ++ s ++ List.intercalate s (b :: rest) := by
  simp [List.intercalate, List.intersperse]

theorem intercalate_single (s a : List Char) : List.intercalate s [a] = a := by
  simp [List.intercalate, List.intersperse]

theorem split_intercalate (c : Char) : ∀ parts : List (List Char),
    (∀ p ∈ parts, c ∉ p) → parts ≠ [] →
    splitOnChar c (List.intercalate [c] parts) = parts := by
  intro parts
  induction parts with
  | nil => intro _ h; exact absurd rfl h
  | cons a rest ih =>
    intro hp _
    cases rest with
    | nil =>
      rw [intercalate_single]
      exact split_no_sep c a (hp a (by simp))
    | cons b rest2 =>
      rw [intercalate_two, List.append_assoc]
      have h1 : ([c] ++ List.intercalate [c] (b :: rest2))
          = c :: List.intercalate [c] (b :: rest2) := rfl
      rw [h1, split_append c a _ (hp a (by simp)),
        ih (fun p hp2 => hp p (by simp [hp2])) (by simp)]

theorem mem_intercalate (c : Char) (s : List Char) : ∀ parts : List (List Char),
    c ∈ List.intercalate s parts → c ∈ s ∨ ∃ p ∈ parts, c ∈ p := by
  intro parts
  induction parts with
  | nil => intro h; simp [List.intercalate] at h
  | cons a rest ih =>
    intro h
    cases rest with
    | nil =>
      rw [intercalate_single] at h
      exact Or.inr ⟨a, by simp, h⟩
    | cons b rest2 =>
      rw [intercalate_two, List.append_assoc, List.mem_append] at h
      rcases h with h | h
      · exact Or.inr ⟨a, by simp, h⟩
      · rw [List.mem_append] at h
        rcases h with h | h
        · exact Or.inl h
        · rcases ih h with h | ⟨p, hp, hc⟩
          · exact Or.inl h
          · exact Or.inr ⟨p, by simp [List.mem_cons] at hp ⊢; tauto, hc⟩

theorem not_dash_natToChars (n : Nat) : '-' ∉ natToChars n := by
  intro h
  obtain ⟨d, hd, hc⟩ := mem_natToChars n _ h
  exact digitChar_ne_dash d hd hc.symm

theorem not_space_natToChars (n : Nat) : ' ' ∉ natToChars n := by
  intro h
  obtain ⟨d, hd, hc⟩ := mem_natToChars n _ h
  exact digitChar_ne_space d hd hc.symm

theorem not_slash_natToChars (n : Nat) : '/' ∉ natToChars n := by
  intro h
  obtain ⟨d, hd, hc⟩ := mem_natToChars n _ h
  exact digitChar_ne_slash d hd hc.symm

theorem not_space_intToChars (i : Int) : ' ' ∉ intToChars i := by
  unfold intToChars
  split_ifs
  · intro h
    rw [List.mem_cons] at h
    rcases h with h | h
    · exact absurd h (by decide)
    · exact not_space_natToChars _ h
  · exact not_space_natToChars _

theorem mem_renderGroup (g : Nat × Int) (c : Char) (hc : c ∈ renderGroup g) :
    (∃ d, d < 10 ∧ c = digitChar d) ∨ c = '-' ∨ c = 'w' ∨ c = 'b' := by
  unfold renderGroup at hc
  rw [List.mem_append, List.mem_cons] at hc
  rcases hc with hc | hc | hc
  · exact Or.inl (mem_natToChars _ _ hc)
  · exact Or.inr (Or.inl hc)
  · rw [List.mem_append, List.mem_cons] at hc
    rcases hc with hc | hc | hc
    · exact Or.inl (mem_natToChars _ _ hc)
    · exact Or.inr (Or.inl hc)
    · rw [List.mem_singleton] at hc
      rw [hc]
      split_ifs
      · exact Or.inr (Or.inr (Or.inl rfl))
      · exact Or.inr (Or.inr (Or.inr rfl))

theorem not_space_renderGroup (g : Nat × Int) : ' ' ∉ renderGroup g := by
  intro h
  rcases mem_renderGroup g ' ' h with ⟨d, hd, hc⟩ | hc | hc | hc
  · exact digitChar_ne_space d hd hc.symm
  all_goals exact absurd hc (by decide)

theorem not_slash_renderGroup (g : Nat × Int) : '/' ∉ renderGroup g := by
  intro h
  rcases mem_renderGroup g '/' h with ⟨d, hd, hc⟩ | hc | hc | hc
  · exact digitChar_ne_slash d hd hc.symm
  all_goals exact absurd hc (by decide)

theorem groupsFrom_mem (b : Board) : ∀ (n s : Nat) (g : Nat × Int), g ∈ groupsFrom b s n →
    s ≤ g.1 ∧ g.1 < s + n ∧ g.2 = b.pointAt (g.1 : Int) ∧ g.2 ≠ 0 := by
  intro n
  induction n with
  | zero => intro s g hg; simp [groupsFrom] at hg
  | succ n ih =>
    intro s g hg
    simp only [groupsFrom] at hg
    rw [List.mem_append] at hg
    rcases hg with hg | hg
    · split_ifs at hg with hc
      · rw [List.mem_singleton] at hg
        subst hg
        exact ⟨le_rfl, by omega, rfl, hc⟩
      · simp at hg
    · obtain ⟨hs, hlt, hv, hnz⟩ := ih (s + 1) g hg
      exact ⟨by omega, by omega, hv, hnz⟩

theorem groupsFrom_nil (b : Board) : ∀ (n s : Nat), groupsFrom b s n = [] →
    ∀ i : Nat, s ≤ i → i < s + n → b.pointAt (i : Int) = 0 := by
  intro n
  induction n with
  | zero => intro s h i h1 h2; omega
  | succ n ih =>
    intro s h i h1 h2
    simp only [groupsFrom] at h
    rw [List.append_eq_nil] at h
    by_cases hi : i = s
    · subst hi
      rcases h with ⟨ha, -⟩
      split_ifs at ha with hc
      exact not_not.mp hc
    · exact ih (s + 1) h.2 i (by omega) (by omega)

theorem parseGroup_renderGroup (g : Nat × Int) (h1 : g.1 < 24) (_h2 : g.2 ≠ 0) :
    parseGroup (renderGroup g) = some g := by
  have hA : '-' ∉ natToChars (g.1 + 1) := not_dash_natToChars _
  have hB : '-' ∉ natToChars g.2.natAbs := not_dash_natToChars _
  have hside : '-' ∉ [if 0 < g.2 then 'w' else 'b'] := by
    rw [List.mem_singleton]
    split_ifs <;> decide
  have hps : splitOnChar '-' (renderGroup g)
      = [natToChars (g.1 + 1), natToChars g.2.natAbs, [if 0 < g.2 then 'w' else 'b']] := by
    unfold renderGroup
    rw [split_append '-' _ _ hA, split_append '-' _ _ hB, split_no_sep '-' _ hside]
  unfold parseGroup
  rw [hps]
  simp only [parseInt_natToChars]
  rw [if_pos (by constructor <;> omega)]
  by_cases hpos : 0 < g.2
  · rw [if_pos hpos, if_pos rfl]
    have e1 : (((g.1 + 1 : Nat) : Int) - 1).toNat = g.1 := by omega
    have e2 : ((g.2.natAbs : Nat) : Int) = g.2 := by omega
    rw [e1, e2]
  · rw [if_neg hpos, if_neg (by decide)]
    have e1 : (((g.1 + 1 : Nat) : Int) - 1).toNat = g.1 := by omega
    have e2 : -((g.2.natAbs : Nat) : Int) = g.2 := by omega
    rw [e1, e2]

theorem foldlM_parse : ∀ (gs : List (Nat × Int)) (acc : List Int),
    (∀ g ∈ gs, parseGroup (renderGroup g) = some g) →
    List.foldlM
      (fun (acc : List Int) part => do
        let g ← parseGroup part
        pure (acc.set g.1 g.2))
      acc (gs.map renderGroup)
      = some (gs.foldl (fun a (g : Nat × Int) => a.set g.1 g.2) acc) := by
  intro gs
  induction gs with
  | nil => intro acc _; rfl
  | cons g rest ih =>
    intro acc h
    simp only [List.map_cons, List.foldlM_cons]
    rw [h g (by simp)]
    show List.foldlM _ (acc.set g.1 g.2) (rest.map renderGroup) = _
    rw [ih (acc.set g.1 g.2) (fun g2 hg2 => h g2 (by simp [hg2]))]
    rfl

theorem list_eq_of_getD : ∀ (l1 l2 : List Int), l1.length = l2.length →
    (∀ i : Nat, i < l1.length → l1.getD i 0 = l2.getD i 0) → l1 = l2 := by
  intro l1
  induction l1 with
  | nil =>
    intro l2 h _
    cases l2
    · rfl
    · simp at h
  | cons x xs ih =>
    intro l2 h hp
    cases l2 with
    | nil => simp at h
    | cons y ys =>
      have h0 := hp 0 (by simp)
      simp only [List.getD_cons_zero] at h0
      subst h0
      congr 1
      apply ih ys (by simpa using h)
      intro i hi
      have hs := hp (i + 1) (by simpa using Nat.succ_lt_succ hi)
      simpa [List.getD_cons_succ] using hs

theorem groupsFrom_foldl (b : Board) : ∀ (n s : Nat) (acc : List Int), acc.length = 24 →
    s + n ≤ 24 →
    (((groupsFrom b s n).foldl (fun a (g : Nat × Int) => a.set g.1 g.2) acc).length = 24 ∧
     ∀ i : Nat, i < 24 →
       ((groupsFrom b s n).foldl (fun a (g : Nat × Int) => a.set g.1 g.2) acc).getD i 0 =
         if s ≤ i ∧ i < s + n ∧ b.pointAt (i : Int) ≠ 0 then b.pointAt (i : Int)
         else acc.getD i 0) := by
  intro n
  induction n with
  | zero =>
    intro s acc hl hs
    refine ⟨by simpa [groupsFrom] using hl, ?_⟩
    intro i hi
    rw [if_neg (fun hc => by omega)]
    simp [groupsFrom]
  | succ n ih =>
    intro s acc hl hs
    simp only [groupsFrom, List.foldl_append]
    by_cases hz : b.pointAt (s : Int) ≠ 0
    · rw [if_pos hz]
      simp only [List.foldl_cons, List.foldl_nil]
      obtain ⟨ihl, ihp⟩ := ih (s + 1) (acc.set s (b.pointAt (s : Int)))
        (by simpa using hl) (by omega)
      refine ⟨ihl, ?_⟩
      intro i hi
      rw [ihp i hi]
      by_cases hi_s : i = s
      · subst hi_s
        rw [if_neg (fun hc => by omega), if_pos ⟨le_rfl, by omega, hz⟩,
          getD_set_eq _ _ _ (by omega)]
      · rw [getD_set_ne _ _ _ _ (fun he => hi_s he.symm)]
        refine if_congr ?_ rfl rfl
        constructor
        · rintro ⟨a1, a2, a3⟩; exact ⟨by omega, by omega, a3⟩
        · rintro ⟨a1, a2, a3⟩; exact ⟨by omega, by omega, a3⟩
    · rw [if_neg hz]
      simp only [List.foldl_nil]
      obtain ⟨ihl, ihp⟩ := ih (s + 1) acc hl (by omega)
      refine ⟨ihl, ?_⟩
      intro i hi
      rw [ihp i hi]
      by_cases hi_s : i = s
      · subst hi_s
        rw [if_neg (fun hc => by omega), if_neg (fun hc => hz hc.2.2)]
      · refine if_congr ?_ rfl rfl
        constructor
        · rintro ⟨a1, a2, a3⟩; exact ⟨by omega, by omega, a3⟩
        · rintro ⟨a1, a2, a3⟩; exact ⟨by omega, by omega, a3⟩

theorem getD_replicate_zero : ∀ (n i : Nat), (List.replicate n (0 : Int)).getD i 0 = 0 := by
  intro n
  induction n with
  | zero => intro i; simp
  | succ n ih =>
    intro i
    cases i with
    | zero => simp [List.replicate]
    | succ j => rw [List.replicate_succ, List.getD_cons_succ]; exact ih j

theorem split_space_serialize (b : Board) :
    splitOnChar ' ' (serializeChars b) =
      [List.intercalate ['/'] ((groupsFrom b 0 24).map renderGroup),
       [Player.get_str_repr b.turn],
       intToChars b.barredWhite, intToChars b.barredBlack,
       intToChars b.offedWhite, intToChars b.offedBlack] := by
  unfold serializeChars
  have hC : ' ' ∉ List.intercalate ['/'] ((groupsFrom b 0 24).map renderGroup) := by
    intro h
    rcases mem_intercalate ' ' _ _ h with h | ⟨p, hp, hmem⟩
    · rw [List.mem_singleton] at h
      exact absurd h (by decide)
    · rw [List.mem_map] at hp
      obtain ⟨g, -, rfl⟩ := hp
      exact not_space_renderGroup g hmem
  rw [split_append ' ' _ _ hC]
  have hr1 : (Player.get_str_repr b.turn :: ' ' :: (intToChars b.barredWhite
        ++ ' ' :: (intToChars b.barredBlack
        ++ ' ' :: (intToChars b.offedWhite ++ ' ' :: intToChars b.offedBlack))))
      = [Player.get_str_repr b.turn] ++ ' ' :: (intToChars b.barredWhite
        ++ ' ' :: (intToChars b.barredBlack
        ++ ' ' :: (intToChars b.offedWhite ++ ' ' :: intToChars b.offedBlack))) := rfl
  rw [hr1, split_append ' ' _ _ (by cases b.turn <;> decide),
    split_append ' ' _ _ (not_space_intToChars _),
    split_append ' ' _ _ (not_space_intToChars _),
    split_append ' ' _ _ (not_space_intToChars _),
    split_no_sep ' ' _ (not_space_intToChars _)]

theorem serialize_roundtrip (b : Board) (hv : ValidBoard b)
    (hne : ∃ i : Nat, i < 24 ∧ b.pointAt (i : Int) ≠ 0) :
    from_string (serialize_board b) = some b := by
  obtain ⟨hlen, -, -, -, -, -, -⟩ := hv
  have hgne : groupsFrom b 0 24 ≠ [] := by
    intro hnil
    obtain ⟨i, hi, hz⟩ := hne
    exact hz (groupsFrom_nil b 24 0 hnil i (by omega) (by omega))
  unfold from_string serialize_board
  have hd : (String.mk (serializeChars b)).data = serializeChars b := rfl
  rw [hd, split_space_serialize b]
  have hturn : playerFromStr [Player.get_str_repr b.turn] = some b.turn := by
    cases b.turn <;> rfl
  have hCsplit : splitOnChar '/'
      (List.intercalate ['/'] ((groupsFrom b 0 24).map renderGroup))
      = (groupsFrom b 0 24).map renderGroup := by
    refine split_intercalate '/' _ ?_ (by simpa using hgne)
    intro p hp
    rw [List.mem_map] at hp
    obtain ⟨g, -, rfl⟩ := hp
    exact not_slash_renderGroup g
  have hfold := foldlM_parse (groupsFrom b 0 24) (List.replicate 24 0)
    (fun g hg => parseGroup_renderGroup g
      (by have := groupsFrom_mem b 24 0 g hg; omega)
      (groupsFrom_mem b 24 0 g hg).2.2.2)
  obtain ⟨hRlen, hRp⟩ := groupsFrom_foldl b 24 0 (List.replicate 24 0) (by simp) (by omega)
  have hpts : (groupsFrom b 0 24).foldl (fun a (g : Nat × Int) => a.set g.1 g.2)
      (List.replicate 24 0) = b.points := by
    apply list_eq_of_getD _ _ (by rw [hRlen, hlen])
    intro i hi
    rw [hRlen] at hi
    rw [hRp i hi]
    by_cases hz : b.pointAt (i : Int) ≠ 0
    · rw [if_pos ⟨by omega, by omega, hz⟩, pointAt_natCast]
    · rw [if_neg (fun hc => hz hc.2.2)]
      rw [getD_replicate_zero 24 i]
      have hz2 : b.pointAt (i : Int) = 0 := not_not.mp hz
      rw [pointAt_natCast] at hz2
      exact hz2.symm
  show (do
      let turn ← playerFromStr [Player.get_str_repr b.turn]
      let bwI ← parseInt (intToChars b.barredWhite)
      let bbI ← parseInt (intToChars b.barredBlack)
      let owI ← parseInt (intToChars b.offedWhite)
      let obI ← parseInt (intToChars b.offedBlack)
      let pts ← (splitOnChar '/'
          (List.intercalate ['/'] ((groupsFrom b 0 24).map renderGroup))).foldlM
        (fun (acc : List Int) part => do
          let g ← parseGroup part
          pure (acc.set g.1 g.2))
        (List.replicate 24 (0 : Int))
      pure (Board.mk pts turn bwI bbI owI obI)) = some b
  rw [hturn, parseInt_intToChars, parseInt_intToChars, parseInt_intToChars,
    parseInt_intToChars]
  show (do
      let pts ← (splitOnChar '/'
          (List.intercalate ['/'] ((groupsFrom b 0 24).map renderGroup))).foldlM
        (fun (acc : List Int) part => do
          let g ← parseGroup part
          pure (acc.set g.1 g.2))
        (List.replicate 24 (0 : Int))
      pure (Board.mk pts b.turn b.barredWhite b.barredBlack b.offedWhite b.offedBlack))
    = some b
  rw [hCsplit, hfold, hpts]
  rfl

/-- C8: the round-trip clause fails on a valid board with no occupied
point: `boardC8` keeps all 30 checkers on the bar, its serialization
starts with an empty checkers field, and `from_string` rejects it
(the source would raise on the empty group). -/
theorem c8_counterexample :
    ValidBoard boardC8 ∧ from_string (serialize_board boardC8) = none :=
  ⟨by decide, by decide⟩

/-- C8 (amended): deserializing the serialization restores every valid
board that has at least one occupied point, and the starting board
serializes to exactly the documented literal. -/
theorem c8_amended (b : Board) (hv : ValidBoard b)
    (hne : ∃ i : Nat, i < 24 ∧ b.pointAt (i : Int) ≠ 0) :
    from_string (serialize_board b) = some b ∧
    serialize_board startBoard
      = "1-2-b/6-5-w/8-3-w/12-5-b/13-5-w/17-3-b/19-5-b/24-2-w w 0 0 0 0" :=
  ⟨serialize_roundtrip b hv hne, by decide⟩

/-- Witness for the amended C8: the starting board itself round-trips. -/
theorem c8_amended_witness :
    from_string (serialize_board startBoard) = some startBoard :=
  (c8_amended startBoard (by decide) ⟨0, by decide, by decide⟩).1

end TDGammon
